import Mathlib

/-!
# memstat: a shallow embedding of `memstat.cxx`

The file follows the source top to bottom: the record type, the option
handling, the reading of one process directory, the enumeration of the
process root, and `main` with its width computation, sort and table output.
Integers of type `int64_t` are modelled by `Int`; where the source adds to a
running total the result is reduced into the 64-bit range with `wrap64`.
Strings (`std::string`) are lists of characters. What the program takes from
outside is an argument of the model: the successive returns of `getopt_long`
for the command line, and a snapshot of the process root with its directory
entries and the files `comm`, `smaps_rollup` and `smaps` in each of them.
Library routines the program relies on (`operator>>`, `std::getline`,
`std::sort`, the string constructor) are modelled after the GNU C++ library.
-/

namespace Memstat

/-! ## Data model (memstat.cxx:45-79) -/

/-- The record of one process, `struct Process` (memstat.cxx:45-53). -/
structure Process where
  name : List Char
  priv : Int
  shared : Int
  rss : Int
  pss : Int
  swap : Int
  swap_pss : Int
deriving DecidableEq

/-- The list type `ProcList` (memstat.cxx:56); shared ownership is not modelled. -/
abbrev ProcList := List Process

/-- The sort keys, `enum class Sort` (memstat.cxx:66-73); `Sort` itself is a
reserved word here. -/
inductive SortMode where
  | None
  | Shared
  | Private
  | Rss
  | Swap
  | Name
deriving DecidableEq

/-- The options, `struct Config` (memstat.cxx:75-79). -/
structure Config where
  help : Bool
  swap : Bool
  sort : SortMode
deriving DecidableEq

/-! ## 64-bit integers -/

/-- Largest value of `int64_t`. -/
def INT64_MAX : Int := 9223372036854775807

/-- Smallest value of `int64_t`. -/
def INT64_MIN : Int := -9223372036854775808

/-- Two's-complement reduction into the `int64_t` range: the value a 64-bit
addition leaves in the register. The language leaves a signed addition that
overflows undefined; the statements below that speak about sums assume that
the sum fits, and none of the concrete runs below overflows an addition. -/
def wrap64 (x : Int) : Int := (x + 9223372036854775808) % 18446744073709551616 - 9223372036854775808

/-! ## Formatted input (`std::stringstream`, classic locale) -/

/-- State of an input string stream: the unread characters and the two state
bits the extractors consult. -/
structure IStream where
  buf : List Char
  eofbit : Bool
  failbit : Bool
deriving DecidableEq

/-- The test `good()`: neither bit is set. -/
def IStream.good (s : IStream) : Bool := !s.eofbit && !s.failbit

/-- A fresh stream over a line, `std::stringstream strm(line)` (memstat.cxx:182). -/
def IStream.ofLine (line : List Char) : IStream := ⟨line, false, false⟩

/-- The classification `std::isspace` in the classic locale. -/
def isspace (c : Char) : Bool :=
  c == ' ' || c == '\t' || c == '\n' || c == '\x0b' || c == '\x0c' || c == '\r'

/-- The classification `std::isdigit`. -/
def isdigit (c : Char) : Bool := decide (48 ≤ c.toNat) && decide (c.toNat ≤ 57)

/-- The sentry every formatted extractor constructs first. A stream that is
not `good()` gets failbit and the extraction is skipped; otherwise leading
white space is consumed, and reaching the end while doing so sets eofbit and
failbit and skips the extraction as well. -/
def sentry (s : IStream) : IStream × Bool :=
  if !s.good then ({ s with failbit := true }, false)
  else
    let rest := s.buf.dropWhile isspace
    if rest.isEmpty then (⟨[], true, true⟩, false)
    else (⟨rest, false, false⟩, true)

/-- Extraction of a word, `strm >> junk`: the characters up to the next white
space. When the sentry fails the target keeps its old content. -/
def extractString (s : IStream) (str : List Char) : IStream × List Char :=
  match sentry s with
  | (s1, false) => (s1, str)
  | (s1, true) =>
    let tok := s1.buf.takeWhile (fun c => !isspace c)
    let rest := s1.buf.dropWhile (fun c => !isspace c)
    (⟨rest, rest.isEmpty, tok.isEmpty⟩, tok)

/-- Value of a run of decimal digits read left to right. -/
def digitsValue (ds : List Char) : Nat :=
  ds.foldl (fun acc c => 10 * acc + (c.toNat - 48)) 0

/-- The conversion `num_get::get` for a `long long` in base 10: an optional
sign and the longest run of digits. Without a digit the result is 0 with
failbit; a value outside the `int64_t` range gives the nearest limit with
failbit. Returns the unread rest, the stored value and the failure flag. -/
def numGet (buf : List Char) : List Char × Int × Bool :=
  let signed : Bool × List Char :=
    match buf with
    | '-' :: t => (true, t)
    | '+' :: t => (false, t)
    | _ => (false, buf)
  let ds := signed.2.takeWhile isdigit
  let rest := signed.2.dropWhile isdigit
  if ds.isEmpty then (rest, 0, true)
  else
    let n : Int := (digitsValue ds : Nat)
    if signed.1 then
      (if n > 9223372036854775808 then (rest, INT64_MIN, true) else (rest, -n, false))
    else
      (if n > INT64_MAX then (rest, INT64_MAX, true) else (rest, n, false))

/-- Extraction of an `int64_t`, `strm >> value`. When the sentry fails (the
stream already hit its end, or only white space is left) the target variable
is not written at all and keeps whatever it held before. -/
def extractInt64 (s : IStream) (v : Int) : IStream × Int :=
  match sentry s with
  | (s1, false) => (s1, v)
  | (s1, true) =>
    let r := numGet s1.buf
    (⟨r.1, r.1.isEmpty, r.2.2⟩, r.2.1)

/-! ## Reading one process directory (memstat.cxx:147-221) -/

/-- The variables declared once before the read loop (memstat.cxx:172-178).
They live across iterations, so a value extracted for one line is still
there when the next line is processed. -/
structure Locals where
  junk : List Char
  shared : Int
  priv : Int
  rss : Int
  pss : Int
  swap : Int
  swap_pss : Int
deriving DecidableEq

/-- The record under construction together with the loop variables. -/
structure ParseState where
  process : Process
  vars : Locals
deriving DecidableEq

/-- The statement `strm >> junk >> value` on a fresh stream over `line`:
returns the new content of `junk` and of the numeric variable. -/
def extractPair (line : List Char) (junk : List Char) (value : Int) : List Char × Int :=
  let r1 := extractString (IStream.ofLine line) junk
  let r2 := extractInt64 r1.1 value
  (r1.2, r2.2)

/-- One iteration of the read loop (memstat.cxx:182-214): the chain of prefix
tests, the extraction into the loop variable and the addition to the total. -/
def processLine (st : ParseState) (line : List Char) : ParseState :=
  let p := st.process
  let v := st.vars
  if line.take 6 = "Shared".toList then
    let r := extractPair line v.junk v.shared
    ⟨{ p with shared := wrap64 (p.shared + r.2) }, { v with junk := r.1, shared := r.2 }⟩
  else if line.take 7 = "Private".toList then
    let r := extractPair line v.junk v.priv
    ⟨{ p with priv := wrap64 (p.priv + r.2) }, { v with junk := r.1, priv := r.2 }⟩
  else if line.take 3 = "Rss".toList then
    let r := extractPair line v.junk v.rss
    ⟨{ p with rss := wrap64 (p.rss + r.2) }, { v with junk := r.1, rss := r.2 }⟩
  else if line.take 3 = "Pss".toList then
    let r := extractPair line v.junk v.pss
    ⟨{ p with pss := wrap64 (p.pss + r.2) }, { v with junk := r.1, pss := r.2 }⟩
  else if line.take 5 = "Swap:".toList then
    let r := extractPair line v.junk v.swap
    ⟨{ p with swap := wrap64 (p.swap + r.2) }, { v with junk := r.1, swap := r.2 }⟩
  else if line.take 8 = "SwapPss:".toList then
    let r := extractPair line v.junk v.swap_pss
    ⟨{ p with swap_pss := wrap64 (p.swap_pss + r.2) }, { v with junk := r.1, swap_pss := r.2 }⟩
  else st

/-- The loop variables as initialised at memstat.cxx:171-178. -/
def Locals.init : Locals := ⟨[], 0, 0, 0, 0, 0, 0⟩

/-- The record as initialised at memstat.cxx:151 with the given name. -/
def Process.init (name : List Char) : Process := ⟨name, 0, 0, 0, 0, 0, 0⟩

/-- The whole read loop `while (std::getline(ifile, line))` over the lines of
the file, started from a record and fresh loop variables. -/
def parseLines (process : Process) (lines : List (List Char)) : Process :=
  (lines.foldl processLine ⟨process, Locals.init⟩).process

/-- The lines `std::getline` delivers for a text: pieces between newline
characters, without a final empty piece. The second argument collects the
current line in reverse. -/
def getlinesAux : List Char → List Char → List (List Char)
  | [], cur => if cur.isEmpty then [] else [cur.reverse]
  | c :: cs, cur => if c = '\n' then cur.reverse :: getlinesAux cs [] else getlinesAux cs (c :: cur)

/-- All lines of a text in reading order. -/
def getlines (text : List Char) : List (List Char) := getlinesAux text []

/-- What the file system reports for one path inside a process directory. -/
inductive FileEntry where
  /-- Nothing is there: `exists()` is false. -/
  | missing
  /-- Something is there that is not a regular file. -/
  | other
  /-- A regular file; `none` when opening it for reading fails, otherwise the
  text that can be read from it. -/
  | regular (content : Option (List Char))
deriving DecidableEq

/-- The test `directory_entry::exists()`. -/
def FileEntry.doesExist : FileEntry → Bool
  | .missing => false
  | _ => true

/-- The test `directory_entry::is_regular_file()`. -/
def FileEntry.is_regular_file : FileEntry → Bool
  | .regular _ => true
  | _ => false

/-- Opening the file with `std::ifstream` and testing `is_open() && good()`:
the readable text, if any. -/
def FileEntry.open : FileEntry → Option (List Char)
  | .regular content => content
  | _ => none

/-- The three paths `getProcessData` looks at below `pid_dir`. -/
structure PidDir where
  comm : FileEntry
  smaps_rollup : FileEntry
  smaps : FileEntry
deriving DecidableEq

/-- The first line of a text as `std::getline(ifile, process.name)` stores it. -/
def getline (text : List Char) : List Char := text.takeWhile (fun c => c != '\n')

/-- The function `getProcessData` (memstat.cxx:147-221) on a directory in
which the status of the three paths could be read: the name from `comm`, then
the totals from `smaps_rollup`, or from `smaps` when the former does not
exist as a regular file. The construction of the three directory entries,
which throws when a status cannot be read, is `getProcessDataChecked`. -/
def getProcessData (pid_dir : PidDir) : Process :=
  let comm := pid_dir.comm
  let process : Process := ⟨[], 0, 0, 0, 0, 0, 0⟩
  let process :=
    if comm.doesExist && comm.is_regular_file then
      match comm.open with
      | some text => { process with name := getline text }
      | none => process
    else process
  let smaps :=
    if !pid_dir.smaps_rollup.doesExist || !pid_dir.smaps_rollup.is_regular_file then pid_dir.smaps
    else pid_dir.smaps_rollup
  if smaps.doesExist && smaps.is_regular_file then
    match smaps.open with
    | some text => parseLines process (getlines text)
    | none => process
  else process

/-! ## Enumerating the process root (memstat.cxx:223-245) -/

/-- One entry the directory iterator yields under the process root. -/
structure DirEntry where
  filename : List Char
  doesExist : Bool
  is_directory : Bool
  dir : PidDir
deriving DecidableEq

/-- The process root `/proc` as the file system presents it. -/
structure ProcRoot where
  doesExist : Bool
  is_directory : Bool
  entries : List DirEntry
deriving DecidableEq

/-- The lambda `isNumber` (memstat.cxx:225-232). -/
def isNumber (str : List Char) : Bool := str.all isdigit

/-- The body of the loop over the directory entries (memstat.cxx:238-242): the
directory is read once for the test and a second time for the record that is
appended. The file system is one fixed snapshot, so both reads see the same
files. -/
def visitEntry (list : ProcList) (dentry : DirEntry) : ProcList :=
  if dentry.doesExist && dentry.is_directory && isNumber dentry.filename then
    let process := getProcessData dentry.dir
    if process.rss ≠ 0 then list ++ [getProcessData dentry.dir] else list
  else list

/-- The function `createProcessList` (memstat.cxx:223-245): appends to `list`. -/
def createProcessList (list : ProcList) (proc : ProcRoot) : ProcList :=
  if proc.doesExist && proc.is_directory then proc.entries.foldl visitEntry list
  else list

/-! ## Options (memstat.cxx:34-43, 100-143) -/

/-- The constant `None`. -/
def None : List Char := "none".toList
/-- The constant `Shared`. -/
def Shared : List Char := "shared".toList
/-- The constant `Private`. -/
def Private : List Char := "private".toList
/-- The constant `Rss`. -/
def Rss : List Char := "rss".toList
/-- The constant `Swap`. -/
def Swap : List Char := "swap".toList
/-- The constant `Name`. -/
def Name : List Char := "name".toList

/-- One return of `getopt_long`: the code it returns (a character code, or -1
at the end, or the code for an unknown option) and `optarg` at that moment. -/
structure GetoptResult where
  argument : Int
  optarg : List Char
deriving DecidableEq

/-- The `switch` of `parseCommandLine` (memstat.cxx:110-141) for one return of
`getopt_long`: the new options and whether the loop goes on. -/
def parseArgument (config : Config) (r : GetoptResult) : Config × Bool :=
  if r.argument = 104 then ({ config with help := true }, true)
  else if r.argument = 83 then ({ config with swap := true }, true)
  else if r.argument = 115 then
    let arg := r.optarg
    let config :=
      if arg = Shared then { config with sort := SortMode.Shared }
      else if arg = Private then { config with sort := SortMode.Private }
      else if arg = Rss then { config with sort := SortMode.Rss }
      else if arg = Swap then { config with sort := SortMode.Swap }
      else if arg = Name then { config with sort := SortMode.Name }
      else config
    (config, true)
  else (config, false)

/-- The function `parseCommandLine` (memstat.cxx:100-143) over the successive
returns of `getopt_long`; the end of the list stands for the final -1. -/
def parseCommandLine : List GetoptResult → Config → Config
  | [], config => config
  | r :: rs, config =>
    let step := parseArgument config r
    if step.2 then parseCommandLine rs step.1 else step.1

/-- The usage text `help` writes (memstat.cxx:87-98). -/
def help (name : List Char) : List Char :=
  "usage: ".toList ++ name ++ " <options>\n".toList
    ++ "Version 0.1\n".toList
    ++ "Shows detailed memory usage of all processes.\n".toList
    ++ "\n".toList
    ++ "options:\n".toList
    ++ "  -h, --help      show this help screen\n".toList
    ++ "  -S, --swap      show swap usage\n".toList
    ++ "  -s, --sort <s>  sort by shared, private, rss, swap or name\n".toList
    ++ "\n".toList

/-! ## Helpers of `main` (memstat.cxx:249-265) -/

/-- The recursion of `lenOfNum` unrolled at most `fuel` times. -/
def lenOfNumFuel : Nat → Int → Int
  | 0, _ => 1
  | fuel + 1, value =>
    let tmp := value.tdiv 10
    if tmp > 0 then 1 + lenOfNumFuel fuel tmp else 1

/-- The function `lenOfNum` (memstat.cxx:249-258). The recursion is on
`value / 10`, which is smaller in absolute value, so `value.natAbs` steps are
always enough. -/
def lenOfNum (value : Int) : Int := lenOfNumFuel value.natAbs value

/-- Why the program can end without returning from `main`. -/
inductive Exception where
  /-- The exception `std::length_error` thrown by the string constructor. -/
  | length_error
  /-- The exception `std::filesystem::filesystem_error` thrown by the
  constructor of `directory_entry`. -/
  | filesystem_error
deriving DecidableEq

/-- The bound `std::string::max_size()` of the GNU library on a 64-bit
system; no implementation allows more. -/
def stringMaxSize : Nat := 9223372036854775807

/-- The function `spaceGen` (memstat.cxx:260-265): `std::string tmp(size, ' ')`
throws when `size` exceeds `max_size()`. -/
def spaceGen (size : Nat) : Except Exception (List Char) :=
  if size > stringMaxSize then .error Exception.length_error
  else .ok (List.replicate size ' ')

/-! ## The directory entries of `getProcessData` (memstat.cxx:149-150, 164) -/

/-- What the constructor of `directory_entry` finds when it reads the status
of a path (memstat.cxx:149-150, 164): the entry, where "no such file" is the
entry `missing`, or an error such as "permission denied". -/
inductive PathStatus where
  | error
  | known (entry : FileEntry)
deriving DecidableEq

/-- The three paths below `pid_dir` with the outcome of reading their status. -/
structure PidPaths where
  comm : PathStatus
  smaps_rollup : PathStatus
  smaps : PathStatus
deriving DecidableEq

/-- The function `getProcessData` with the construction of its directory
entries: `directory_entry(path)` calls `refresh()`, which throws
`filesystem_error` when the status cannot be read, and nothing in the program
catches it. The entries for `comm` and `smaps_rollup` are constructed first
(memstat.cxx:149-150), the one for `smaps` only when `smaps_rollup` does not
exist as a regular file (memstat.cxx:163-164); in the other case `smaps` is
not looked at. -/
def getProcessDataChecked (paths : PidPaths) : Except Exception Process :=
  match paths.comm with
  | .error => .error Exception.filesystem_error
  | .known comm =>
    match paths.smaps_rollup with
    | .error => .error Exception.filesystem_error
    | .known smaps_rollup =>
      if !smaps_rollup.doesExist || !smaps_rollup.is_regular_file then
        match paths.smaps with
        | .error => .error Exception.filesystem_error
        | .known smaps => .ok (getProcessData ⟨comm, smaps_rollup, smaps⟩)
      else .ok (getProcessData ⟨comm, smaps_rollup, FileEntry.missing⟩)

/-! ## The library routine `std::sort`

`main` sorts with `std::sort`, which the GNU C++ library implements as an
introsort: median-of-three quicksort down to ranges of 16 elements, heap sort
when the recursion budget is used up, and one final insertion sort. The
definitions follow `bits/stl_algo.h` and `bits/stl_heap.h` function by
function. The array is a list, iterators are positions in it, and a position
outside the list compares false and is never written. -/

/-- The call `comp(i, j)` on two iterators. -/
def compAt {α : Type} (comp : α → α → Bool) (a : List α) (i j : Nat) : Bool :=
  match a[i]?, a[j]? with
  | some x, some y => comp x y
  | _, _ => false

/-- The call `std::iter_swap(i, j)`. -/
def iterSwap {α : Type} (a : List α) (i j : Nat) : List α :=
  match a[i]?, a[j]? with
  | some x, some y => (a.set i y).set j x
  | _, _ => a

/-- The loop of `__unguarded_linear_insert`: `val` is held aside, the slot at
`last + 1` is free, and elements greater than `val` move one slot up. The
library loop has no bound; it relies on an element not greater than `val`
further down. Here the front of the array ends it. -/
def linearInsertLoop {α : Type} (comp : α → α → Bool) (val : α) : Nat → List α → List α
  | 0, a => a.set 0 val
  | last + 1, a =>
    match a[last]? with
    | some next =>
      if comp val next then linearInsertLoop comp val last (a.set (last + 1) next)
      else a.set (last + 1) val
    | none => a.set (last + 1) val

/-- The routine `__unguarded_linear_insert(last, comp)`. -/
def unguardedLinearInsert {α : Type} (comp : α → α → Bool) (a : List α) (last : Nat) : List α :=
  match a[last]? with
  | some val => linearInsertLoop comp val last a
  | none => a

/-- The body of the loop of `__insertion_sort` for position `i`: an element
smaller than the first one goes to the front and `[first, i)` moves up by one,
any other element is inserted from the right. -/
def insertionSortStep {α : Type} (comp : α → α → Bool) (first : Nat) (a : List α) (i : Nat) :
    List α :=
  if compAt comp a i first then
    match a[i]? with
    | some val => a.take first ++ val :: ((a.drop first).take (i - first) ++ a.drop (i + 1))
    | none => a
  else unguardedLinearInsert comp a i

/-- The routine `__insertion_sort(first, last, comp)`. -/
def insertionSort {α : Type} (comp : α → α → Bool) (a : List α) (first last : Nat) : List α :=
  if first = last then a
  else (List.range' (first + 1) (last - (first + 1))).foldl (insertionSortStep comp first) a

/-- The routine `__unguarded_insertion_sort(first, last, comp)`. -/
def unguardedInsertionSort {α : Type} (comp : α → α → Bool) (a : List α) (first last : Nat) :
    List α :=
  (List.range' first (last - first)).foldl (unguardedLinearInsert comp) a

/-- The constant `_S_threshold`. -/
def S_threshold : Nat := 16

/-- The routine `__final_insertion_sort(first, last, comp)`. -/
def finalInsertionSort {α : Type} (comp : α → α → Bool) (a : List α) (first last : Nat) :
    List α :=
  if last - first > S_threshold then
    unguardedInsertionSort comp (insertionSort comp a first (first + S_threshold))
      (first + S_threshold) last
  else insertionSort comp a first last

/-- The routine `__move_median_to_first(result, a, b, c, comp)`. -/
def moveMedianToFirst {α : Type} (comp : α → α → Bool) (arr : List α) (result a b c : Nat) :
    List α :=
  if compAt comp arr a b then
    if compAt comp arr b c then iterSwap arr result b
    else if compAt comp arr a c then iterSwap arr result c
    else iterSwap arr result a
  else if compAt comp arr a c then iterSwap arr result a
  else if compAt comp arr b c then iterSwap arr result c
  else iterSwap arr result b

/-- The inner loop `while (comp(first, pivot)) ++first;` of the partition. -/
def scanUp {α : Type} (comp : α → α → Bool) (a : List α) (pivot : Nat) : Nat → Nat → Nat
  | 0, first => first
  | fuel + 1, first =>
    if compAt comp a first pivot then scanUp comp a pivot fuel (first + 1) else first

/-- The inner loop `while (comp(pivot, last)) --last;` of the partition. -/
def scanDown {α : Type} (comp : α → α → Bool) (a : List α) (pivot : Nat) : Nat → Nat
  | 0 => 0
  | last + 1 => if compAt comp a pivot (last + 1) then scanDown comp a pivot last else last + 1

/-- The routine `__unguarded_partition(first, last, pivot, comp)`; every round
moves `first` up, so a number of rounds above the length is never used up. -/
def unguardedPartition {α : Type} (comp : α → α → Bool) (pivot : Nat) :
    Nat → List α → Nat → Nat → List α × Nat
  | 0, a, first, _ => (a, first)
  | fuel + 1, a, first, last =>
    let first := scanUp comp a pivot a.length first
    let last := scanDown comp a pivot (last - 1)
    if !(decide (first < last)) then (a, first)
    else unguardedPartition comp pivot fuel (iterSwap a first last) (first + 1) last

/-- The routine `__unguarded_partition_pivot(first, last, comp)`: the array
after the partition and the cut position. -/
def unguardedPartitionPivot {α : Type} (comp : α → α → Bool) (a : List α) (first last : Nat) :
    List α × Nat :=
  let mid := first + (last - first) / 2
  let a := moveMedianToFirst comp a first (first + 1) mid (last - 1)
  unguardedPartition comp first (a.length + 1) a (first + 1) last

/-- The routine `__push_heap(first, holeIndex, topIndex, value, comp)`; the
hole moves to its parent in every round, so `holeIndex` rounds are enough. -/
def pushHeap {α : Type} (comp : α → α → Bool) (first topIndex : Nat) (value : α) :
    Nat → List α → Nat → List α
  | 0, a, holeIndex => a.set (first + holeIndex) value
  | fuel + 1, a, holeIndex =>
    let parent := (holeIndex - 1) / 2
    match a[first + parent]? with
    | some p =>
      if decide (holeIndex > topIndex) && comp p value then
        pushHeap comp first topIndex value fuel (a.set (first + holeIndex) p) parent
      else a.set (first + holeIndex) value
    | none => a.set (first + holeIndex) value

/-- The first loop of `__adjust_heap`: the hole sinks to the larger child.
Returns the array, `holeIndex` and `secondChild`. -/
def adjustHeapLoop {α : Type} (comp : α → α → Bool) (first len : Nat) :
    Nat → List α → Nat → Nat → List α × Nat × Nat
  | 0, a, holeIndex, secondChild => (a, holeIndex, secondChild)
  | fuel + 1, a, holeIndex, secondChild =>
    if secondChild < (len - 1) / 2 then
      let secondChild := 2 * (secondChild + 1)
      let secondChild :=
        if compAt comp a (first + secondChild) (first + (secondChild - 1)) then secondChild - 1
        else secondChild
      match a[first + secondChild]? with
      | some x => adjustHeapLoop comp first len fuel (a.set (first + holeIndex) x) secondChild secondChild
      | none => (a, holeIndex, secondChild)
    else (a, holeIndex, secondChild)

/-- The routine `__adjust_heap(first, holeIndex, len, value, comp)`. The test
`2 ≤ len` stands for the signed value of `(len - 2) / 2` when `len` is 0. -/
def adjustHeap {α : Type} (comp : α → α → Bool) (a : List α) (first holeIndex len : Nat)
    (value : α) : List α :=
  let topIndex := holeIndex
  let r := adjustHeapLoop comp first len len a holeIndex holeIndex
  let r2 : List α × Nat :=
    if len % 2 = 0 && decide (2 ≤ len) && r.2.2 = (len - 2) / 2 then
      let secondChild := 2 * (r.2.2 + 1)
      match r.1[first + (secondChild - 1)]? with
      | some x => (r.1.set (first + r.2.1) x, secondChild - 1)
      | none => (r.1, r.2.1)
    else (r.1, r.2.1)
  pushHeap comp first topIndex value r2.2 r2.1 r2.2

/-- The routine `__pop_heap(first, last, result, comp)`. -/
def popHeap {α : Type} (comp : α → α → Bool) (a : List α) (first last result : Nat) : List α :=
  match a[result]?, a[first]? with
  | some value, some top => adjustHeap comp (a.set result top) first 0 (last - first) value
  | _, _ => a

/-- The loop of `__make_heap` from `parent` down to 0. -/
def makeHeapLoop {α : Type} (comp : α → α → Bool) (first len : Nat) : Nat → List α → List α
  | 0, a =>
    match a[first]? with
    | some value => adjustHeap comp a first 0 len value
    | none => a
  | parent + 1, a =>
    match a[first + (parent + 1)]? with
    | some value => makeHeapLoop comp first len parent (adjustHeap comp a first (parent + 1) len value)
    | none => a

/-- The routine `__make_heap(first, last, comp)`. -/
def makeHeap {α : Type} (comp : α → α → Bool) (a : List α) (first last : Nat) : List α :=
  if last - first < 2 then a
  else makeHeapLoop comp first (last - first) ((last - first - 2) / 2) a

/-- The routine `__sort_heap(first, last, comp)`, by recursion on `last`. -/
def sortHeap {α : Type} (comp : α → α → Bool) (first : Nat) : Nat → List α → List α
  | 0, a => a
  | last + 1, a =>
    if last + 1 - first > 1 then sortHeap comp first last (popHeap comp a first last last)
    else a

/-- The routine `__heap_select(first, middle, last, comp)`. -/
def heapSelect {α : Type} (comp : α → α → Bool) (a : List α) (first middle last : Nat) : List α :=
  (List.range' middle (last - middle)).foldl
    (fun a i => if compAt comp a i first then popHeap comp a first middle i else a)
    (makeHeap comp a first middle)

/-- The routine `__partial_sort(first, middle, last, comp)`. -/
def partialSort {α : Type} (comp : α → α → Bool) (a : List α) (first middle last : Nat) : List α :=
  sortHeap comp first middle (heapSelect comp a first middle last)

/-- The routine `__introsort_loop(first, last, depth_limit, comp)`, by
recursion on `depth_limit`: the loop lowers it by one in every round and
hands the right part to a recursive call. -/
def introsortLoop {α : Type} (comp : α → α → Bool) : Nat → List α → Nat → Nat → List α
  | 0, a, first, last =>
    if last - first > S_threshold then partialSort comp a first last last else a
  | depth_limit + 1, a, first, last =>
    if last - first > S_threshold then
      let r := unguardedPartitionPivot comp a first last
      let a := introsortLoop comp depth_limit r.1 r.2 last
      introsortLoop comp depth_limit a first r.2
    else a

/-- The halving loop behind `lg`. -/
def lgFuel : Nat → Nat → Nat
  | 0, _ => 0
  | fuel + 1, n => if 2 ≤ n then lgFuel fuel (n / 2) + 1 else 0

/-- The helper `std::__lg(n)`: the position of the highest set bit. -/
def lg (n : Nat) : Nat := lgFuel n n

/-- The call `std::sort(begin, end, comp)` on a whole vector. -/
def stdSort {α : Type} (comp : α → α → Bool) (a : List α) : List α :=
  if a.length = 0 then a
  else
    finalInsertionSort comp (introsortLoop comp (lg a.length * 2) a 0 a.length) 0 a.length

/-! ## The function `main` (memstat.cxx:267-348) -/

/-- The comparison `operator<` of `std::string`: the first differing
character decides, compared by its code; a proper prefix is smaller. -/
def stringLt : List Char → List Char → Bool
  | _, [] => false
  | [], _ :: _ => true
  | a :: as, b :: bs =>
    if a.toNat < b.toNat then true
    else if b.toNat < a.toNat then false
    else stringLt as bs

/-- One round of the width loop (memstat.cxx:280-283). -/
def lensStep (proc_lens : Process) (entry : Process) : Process :=
  { proc_lens with
    priv := max (lenOfNum entry.priv + 5) proc_lens.priv,
    shared := max (lenOfNum entry.shared + 5) proc_lens.shared,
    rss := max (lenOfNum entry.rss + 5) proc_lens.rss,
    swap := max (lenOfNum entry.swap + 5) proc_lens.swap }

/-- The column widths: `proc_lens` after the loop at memstat.cxx:276-284. -/
def procLens (proc_list : ProcList) : Process :=
  proc_list.foldl lensStep ⟨[], 0, 0, 0, 0, 0, 0⟩

/-- The `switch` on the sort key (memstat.cxx:286-326). -/
def sortList (sort : SortMode) (proc_list : ProcList) : ProcList :=
  match sort with
  | SortMode.Shared => stdSort (fun entry1 entry2 => decide (entry1.shared < entry2.shared)) proc_list
  | SortMode.Private => stdSort (fun entry1 entry2 => decide (entry1.priv < entry2.priv)) proc_list
  | SortMode.Rss => stdSort (fun entry1 entry2 => decide (entry1.rss < entry2.rss)) proc_list
  | SortMode.Swap => stdSort (fun entry1 entry2 => decide (entry1.swap < entry2.swap)) proc_list
  | SortMode.Name => stdSort (fun entry1 entry2 => stringLt entry1.name entry2.name) proc_list
  | SortMode.None => proc_list

/-- The argument of `spaceGen` in the header, `width - label.size() + 4`. The
label size is unsigned, so the whole expression is computed modulo 2^64. -/
def headerPad (width : Int) (size : Nat) : Nat :=
  ((width - (size : Int) + 4) % 18446744073709551616).toNat

/-- Insertion of an `int64_t` into the output stream: decimal digits with a
minus sign for negative values. -/
def showInt (v : Int) : List Char :=
  if v < 0 then '-' :: Nat.toDigits 10 v.natAbs else Nat.toDigits 10 v.natAbs

/-- The manipulator `std::setw(w)` applied to the next insertion: blanks in
front up to the width `w`, nothing when the text is already as long. -/
def setw (w : Int) (text : List Char) : List Char :=
  List.replicate (w.toNat - text.length) ' ' ++ text

/-- The rule printed under the header (memstat.cxx:334). -/
def separator : List Char := List.replicate 81 '-'

/-- One header cell `spaceGen(pad) << label` appended to the output written
so far; when `spaceGen` throws, the output stays as it was. -/
def putCell (out : List Char) (pad : Nat) (label : List Char) :
    Except (List Char × Exception) (List Char) :=
  match spaceGen pad with
  | .ok blanks => .ok (out ++ blanks ++ label)
  | .error e => .error (out, e)

/-- The header and the rule (memstat.cxx:328-335), written left to right. -/
def printHeader (config : Config) (proc_lens : Process) :
    Except (List Char × Exception) (List Char) := do
  let out ← putCell [] (headerPad proc_lens.shared Shared.length) Shared
  let out ← putCell out (headerPad proc_lens.priv Private.length) Private
  let out ← putCell out (headerPad proc_lens.rss Rss.length) Rss
  let out ← if config.swap then putCell out (headerPad proc_lens.swap Swap.length) Swap
    else pure out
  pure (out ++ "  ".toList ++ Name ++ "\n".toList ++ separator ++ "\n".toList)

/-- One data row (memstat.cxx:339-344). -/
def printRow (config : Config) (proc_lens : Process) (entry : Process) : List Char :=
  setw proc_lens.shared (showInt entry.shared) ++ " KiB".toList
    ++ setw proc_lens.priv (showInt entry.priv) ++ " KiB".toList
    ++ setw proc_lens.rss (showInt entry.rss) ++ " KiB".toList
    ++ (if config.swap then setw proc_lens.swap (showInt entry.swap) ++ " KiB".toList else [])
    ++ "  ".toList ++ entry.name ++ "\n".toList

/-- How a run ends: `main` returns a status, or an exception nobody catches
ends the program. -/
inductive Exit where
  | returned (status : Int)
  | uncaught (e : Exception)
deriving DecidableEq

/-- What a run of the program produces: the text inserted into `std::cout`
and the way it ends. -/
structure Outcome where
  out : List Char
  exit : Exit
deriving DecidableEq

/-- The part of `main` after the list is built (memstat.cxx:276-347): widths,
sort, header and rows. -/
def report (config : Config) (proc_list : ProcList) : Outcome :=
  let proc_lens := procLens proc_list
  let proc_list := sortList config.sort proc_list
  match printHeader config proc_lens with
  | .error (out, e) => ⟨out, Exit.uncaught e⟩
  | .ok out => ⟨out ++ (proc_list.map (printRow config proc_lens)).flatten, Exit.returned 0⟩

/-- The function `main` (memstat.cxx:267-348) on the returns of `getopt_long`
for the command line and the state of the process root. -/
def main (args : List GetoptResult) (proc : ProcRoot) : Outcome :=
  let config := parseCommandLine args ⟨false, false, SortMode.None⟩
  report config (createProcessList [] proc)

/-! ## Notions used in the statements -/

/-- A line begins with a label. -/
def beginsWith (label line : List Char) : Bool := label.isPrefixOf line

/-- The six labels the read loop tests for. -/
def labels : List (List Char) :=
  ["Shared".toList, "Private".toList, "Rss".toList, "Pss".toList, "Swap:".toList,
    "SwapPss:".toList]

/-- The digits of the number in a line of the form
`<label-token> <non-negative integer> ...`: what follows the first word and
the white space after it, as far as it consists of decimal digits. -/
def numberField (line : List Char) : List Char :=
  ((line.dropWhile (fun c => !isspace c)).dropWhile isspace).takeWhile isdigit

/-- The line has the form `<label-token> <non-negative integer> ...`: after
the first word and white space there is at least one digit. -/
def wellFormed (line : List Char) : Bool := !(numberField line).isEmpty

/-- The numeric value of a line of that form. -/
def lineValue (line : List Char) : Nat := digitsValue (numberField line)

/-- The arithmetic sum of the values of all lines that begin with a label. -/
def fieldSum (label : List Char) (lines : List (List Char)) : Nat :=
  ((lines.filter (beginsWith label)).map lineValue).sum

/-- The value an extraction stores for a number: the number itself, or the
largest `int64_t` when it is larger. -/
def clamp (n : Nat) : Int := if (n : Int) > INT64_MAX then INT64_MAX else n

/-- The test of the enumeration loop (memstat.cxx:238): an existing directory
whose name consists of digits. -/
def isProcessDir (dentry : DirEntry) : Bool :=
  dentry.doesExist && dentry.is_directory && isNumber dentry.filename

/-- The parsed records of all process directories in discovery order, before
any filtering. -/
def parsedRecords (proc : ProcRoot) : List Process :=
  if proc.doesExist && proc.is_directory then
    (proc.entries.filter isProcessDir).map (fun dentry => getProcessData dentry.dir)
  else []

/-- The five recognised values of the sort option. -/
def sortKeys : List (List Char) := [Shared, Private, Rss, Swap, Name]

/-- The number of decimal digits of a natural number: the length of its
decimal numeral. -/
def decimalDigits (n : Nat) : Nat := (Nat.toDigits 10 n).length

/-- The requirement `std::sort` puts on its comparison: a strict weak
ordering. -/
structure StrictWeak {α : Type} (comp : α → α → Bool) : Prop where
  asymm : ∀ a b, comp a b = true → comp b a = false
  negTrans : ∀ a b c, comp a b = false → comp b c = false → comp a c = false

/-- Where the insertion loop leaves `val` in the prefix before it: in front
of the longest tail of the prefix whose elements are all greater than `val`. -/
def insertBack {α : Type} (comp : α → α → Bool) (val : α) : List α → List α
  | [] => [val]
  | x :: xs =>
    if (x :: xs).all (fun y => comp val y) then val :: x :: xs
    else x :: insertBack comp val xs

/-- The byte-wise lexicographic order on strings: the first position where
two strings differ decides by the character codes, and a proper prefix comes
first. -/
def lexLt (s t : List Char) : Prop :=
  List.Lex (fun m n : Nat => m < n) (s.map Char.toNat) (t.map Char.toNat)

/-- Seventeen records that all have the same `shared` value. -/
def seventeen : ProcList :=
  [⟨"p00".toList, 0, 0, 1, 0, 0, 0⟩, ⟨"p01".toList, 0, 0, 1, 0, 0, 0⟩,
   ⟨"p02".toList, 0, 0, 1, 0, 0, 0⟩, ⟨"p03".toList, 0, 0, 1, 0, 0, 0⟩,
   ⟨"p04".toList, 0, 0, 1, 0, 0, 0⟩, ⟨"p05".toList, 0, 0, 1, 0, 0, 0⟩,
   ⟨"p06".toList, 0, 0, 1, 0, 0, 0⟩, ⟨"p07".toList, 0, 0, 1, 0, 0, 0⟩,
   ⟨"p08".toList, 0, 0, 1, 0, 0, 0⟩, ⟨"p09".toList, 0, 0, 1, 0, 0, 0⟩,
   ⟨"p10".toList, 0, 0, 1, 0, 0, 0⟩, ⟨"p11".toList, 0, 0, 1, 0, 0, 0⟩,
   ⟨"p12".toList, 0, 0, 1, 0, 0, 0⟩, ⟨"p13".toList, 0, 0, 1, 0, 0, 0⟩,
   ⟨"p14".toList, 0, 0, 1, 0, 0, 0⟩, ⟨"p15".toList, 0, 0, 1, 0, 0, 0⟩,
   ⟨"p16".toList, 0, 0, 1, 0, 0, 0⟩]

/-- The six totals of a record. -/
inductive Field where
  | shared
  | priv
  | rss
  | pss
  | swap
  | swap_pss
deriving DecidableEq

/-- The label the branch of a field compares the start of the line with. -/
def Field.label : Field → List Char
  | .shared => "Shared".toList
  | .priv => "Private".toList
  | .rss => "Rss".toList
  | .pss => "Pss".toList
  | .swap => "Swap:".toList
  | .swap_pss => "SwapPss:".toList

/-- The total of a field in a record. -/
def Field.get : Field → Process → Int
  | .shared, p => p.shared
  | .priv, p => p.priv
  | .rss, p => p.rss
  | .pss, p => p.pss
  | .swap, p => p.swap
  | .swap_pss, p => p.swap_pss

/-- The body of the branch of a field in the read loop (memstat.cxx:186-214). -/
def Field.branch (f : Field) (st : ParseState) (line : List Char) : ParseState :=
  let p := st.process
  let v := st.vars
  match f with
  | .shared =>
    let r := extractPair line v.junk v.shared
    ⟨{ p with shared := wrap64 (p.shared + r.2) }, { v with junk := r.1, shared := r.2 }⟩
  | .priv =>
    let r := extractPair line v.junk v.priv
    ⟨{ p with priv := wrap64 (p.priv + r.2) }, { v with junk := r.1, priv := r.2 }⟩
  | .rss =>
    let r := extractPair line v.junk v.rss
    ⟨{ p with rss := wrap64 (p.rss + r.2) }, { v with junk := r.1, rss := r.2 }⟩
  | .pss =>
    let r := extractPair line v.junk v.pss
    ⟨{ p with pss := wrap64 (p.pss + r.2) }, { v with junk := r.1, pss := r.2 }⟩
  | .swap =>
    let r := extractPair line v.junk v.swap
    ⟨{ p with swap := wrap64 (p.swap + r.2) }, { v with junk := r.1, swap := r.2 }⟩
  | .swap_pss =>
    let r := extractPair line v.junk v.swap_pss
    ⟨{ p with swap_pss := wrap64 (p.swap_pss + r.2) }, { v with junk := r.1, swap_pss := r.2 }⟩

/-- The else-if chain of the read loop with its branches tested in a given
order: the first field whose label starts the line has its branch run. -/
def processLineIn : List Field → ParseState → List Char → ParseState
  | [], st, _ => st
  | f :: rest, st, line =>
    if line.take f.label.length = f.label then f.branch st line
    else processLineIn rest st line

/-- The order in which the source tests the labels. -/
def sourceOrder : List Field :=
  [Field.shared, Field.priv, Field.rss, Field.pss, Field.swap, Field.swap_pss]

/-- A decimal digit: one of the ten characters `0` to `9`. -/
abbrev decimalDigit (c : Char) : Prop := c ∈ "0123456789".toList

/-- A numeric cell of width `w` for the value `v`: the decimal numeral of `v`
with blanks in front, exactly `w` characters long, of which at least five
are blanks. -/
def RightAligned (w v : Int) (cell : List Char) : Prop :=
  cell = List.replicate (w.toNat - decimalDigits v.toNat) ' ' ++ Nat.toDigits 10 v.toNat
  ∧ (cell.length : Int) = w
  ∧ (decimalDigits v.toNat : Int) + 5 ≤ w

/-- The shape of the header row: the labels Shared, Private and Rss in that
order, each after a run of blanks, the label Swap after them when `swap` is
set, and the label Name at the end. -/
def headerLine (swap : Bool) (b1 b2 b3 b4 : Nat) : List Char :=
  List.replicate b1 ' ' ++ Shared ++ (List.replicate b2 ' ' ++ Private)
    ++ (List.replicate b3 ' ' ++ Rss)
    ++ (if swap then List.replicate b4 ' ' ++ Swap else [])
    ++ ("  ".toList ++ Name ++ "\n".toList)

/-- The shape of a data row: the cells for shared, private and rss in that
order, each with its unit, the cell for swap after them when `swap` is set,
and the name at the end. -/
def dataRow (swap : Bool) (shared priv rss swapCell name : List Char) : List Char :=
  shared ++ " KiB".toList ++ (priv ++ " KiB".toList) ++ (rss ++ " KiB".toList)
    ++ (if swap then swapCell ++ " KiB".toList else [])
    ++ ("  ".toList ++ name ++ "\n".toList)

/-! # Theorems -/

/-! ## The read loop adds up (C1) -/

theorem wrap64_of_range (x : Int) (h0 : -9223372036854775808 ≤ x) (h1 : x ≤ 9223372036854775807) :
    wrap64 x = x := by
  unfold wrap64; omega

theorem numGet_digit (buf : List Char) (h : (buf.takeWhile isdigit) ≠ []) :
    (numGet buf).2.1 = if ((digitsValue (buf.takeWhile isdigit) : Nat) : Int) > INT64_MAX then INT64_MAX
      else ((digitsValue (buf.takeWhile isdigit) : Nat) : Int) := by
  rcases buf with _ | ⟨c, t⟩
  · simp at h
  · have hc : isdigit c = true := by
      by_contra hc
      simp [List.takeWhile, hc] at h
    have h1 : c ≠ '-' := by rintro rfl; revert hc; decide
    have h2 : c ≠ '+' := by rintro rfl; revert hc; decide
    unfold numGet
    split
    · rename_i heq; simp at heq; exact absurd heq.1 h1
    · rename_i heq; simp at heq; exact absurd heq.1 h2
    · simp only [List.isEmpty_eq_true, h, if_false]
      simp
      split_ifs <;> rfl

theorem extractPair_wellFormed (line junk : List Char) (v : Int) (c : Char) (t : List Char)
    (hl : line = c :: t) (hc : isspace c = false) (hw : wellFormed line = true) :
    (extractPair line junk v).2 = if ((lineValue line : Nat) : Int) > INT64_MAX then INT64_MAX
      else ((lineValue line : Nat) : Int) := by
  unfold wellFormed numberField at hw
  unfold lineValue numberField
  have hne : (List.takeWhile isdigit (List.dropWhile isspace (List.dropWhile (fun c => !isspace c) line))) ≠ [] := by
    simpa using hw
  have h2 : List.dropWhile isspace (List.dropWhile (fun c => !isspace c) line) ≠ [] := by
    intro h; rw [h] at hne; simp at hne
  have h3 : List.dropWhile (fun c => !isspace c) line ≠ [] := by
    intro h; rw [h] at h2; simp at h2
  have h4 : List.dropWhile isspace line = line := by
    subst hl; simp [List.dropWhile, hc]
  have h5 : List.takeWhile (fun c => !isspace c) line ≠ [] := by
    subst hl; simp [List.takeWhile, hc]
  unfold extractPair extractString extractInt64 sentry IStream.ofLine IStream.good
  simp [h4, h3, h5, h2, hl ▸ (List.cons_ne_nil c t)]
  simpa using numGet_digit _ hne

theorem take_eq_iff_beginsWith (lbl line : List Char) :
    line.take lbl.length = lbl ↔ beginsWith lbl line = true := by
  unfold beginsWith
  rw [List.isPrefixOf_iff_prefix, List.prefix_iff_eq_take]
  exact eq_comm

theorem beginsWith_exclusive (l1 l2 line : List Char) (hlen : l1.length ≤ l2.length)
    (hne : l1.isPrefixOf l2 = false) (h1 : beginsWith l1 line = true)
    (h2 : beginsWith l2 line = true) : False := by
  unfold beginsWith at h1 h2
  rw [List.isPrefixOf_iff_prefix] at h1 h2
  have := List.prefix_of_prefix_length_le h1 h2 hlen
  rw [← List.isPrefixOf_iff_prefix] at this
  rw [this] at hne
  exact Bool.noConfusion hne

theorem beginsWith_head (lbl line : List Char) (a : Char) (as : List Char) (hl : lbl = a :: as)
    (h : beginsWith lbl line = true) : ∃ t, line = a :: t := by
  subst hl
  unfold beginsWith at h
  rw [List.isPrefixOf_iff_prefix] at h
  obtain ⟨t, ht⟩ := h
  exact ⟨as ++ t, by simp [← ht]⟩

theorem processLine_shared (st : ParseState) (line : List Char)
    (hw : beginsWith "Shared".toList line = true → wellFormed line = true) :
    (processLine st line).process.shared =
      if beginsWith "Shared".toList line then wrap64 (st.process.shared + clamp (lineValue line))
      else st.process.shared := by
  have e := take_eq_iff_beginsWith "Shared".toList line
  rw [show "Shared".toList.length = 6 from rfl] at e
  by_cases h : beginsWith "Shared".toList line = true
  · obtain ⟨t, ht⟩ := beginsWith_head "Shared".toList line 'S' ['h', 'a', 'r', 'e', 'd'] rfl h
    have hv := extractPair_wellFormed line st.vars.junk st.vars.shared 'S' t ht (by decide) (hw h)
    rw [if_pos h]
    simp only [processLine, e.2 h, if_true, if_false, hv, clamp]
  · have n : ¬ List.take 6 line = "Shared".toList := fun h1 => h (e.1 h1)
    rw [if_neg h]
    unfold processLine
    simp only [n, if_false]
    split_ifs <;> rfl

theorem processLine_priv (st : ParseState) (line : List Char)
    (hw : beginsWith "Private".toList line = true → wellFormed line = true) :
    (processLine st line).process.priv =
      if beginsWith "Private".toList line then wrap64 (st.process.priv + clamp (lineValue line))
      else st.process.priv := by
  have e := take_eq_iff_beginsWith "Private".toList line
  rw [show "Private".toList.length = 7 from rfl] at e
  by_cases h : beginsWith "Private".toList line = true
  · have n0 : ¬ List.take 6 line = "Shared".toList := fun h1 => by
      have h2 := (take_eq_iff_beginsWith "Shared".toList line).1 h1
      exact beginsWith_exclusive "Shared".toList "Private".toList line (by decide) (by decide) h2 h
    obtain ⟨t, ht⟩ := beginsWith_head "Private".toList line 'P' ['r', 'i', 'v', 'a', 't', 'e'] rfl h
    have hv := extractPair_wellFormed line st.vars.junk st.vars.priv 'P' t ht (by decide) (hw h)
    rw [if_pos h]
    simp only [processLine, n0, e.2 h, if_true, if_false, hv, clamp]
  · have n : ¬ List.take 7 line = "Private".toList := fun h1 => h (e.1 h1)
    rw [if_neg h]
    unfold processLine
    simp only [n, if_false]
    split_ifs <;> rfl

theorem processLine_rss (st : ParseState) (line : List Char)
    (hw : beginsWith "Rss".toList line = true → wellFormed line = true) :
    (processLine st line).process.rss =
      if beginsWith "Rss".toList line then wrap64 (st.process.rss + clamp (lineValue line))
      else st.process.rss := by
  have e := take_eq_iff_beginsWith "Rss".toList line
  rw [show "Rss".toList.length = 3 from rfl] at e
  by_cases h : beginsWith "Rss".toList line = true
  · have n0 : ¬ List.take 6 line = "Shared".toList := fun h1 => by
      have h2 := (take_eq_iff_beginsWith "Shared".toList line).1 h1
      exact beginsWith_exclusive "Rss".toList "Shared".toList line (by decide) (by decide) h h2
    have n1 : ¬ List.take 7 line = "Private".toList := fun h1 => by
      have h2 := (take_eq_iff_beginsWith "Private".toList line).1 h1
      exact beginsWith_exclusive "Rss".toList "Private".toList line (by decide) (by decide) h h2
    obtain ⟨t, ht⟩ := beginsWith_head "Rss".toList line 'R' ['s', 's'] rfl h
    have hv := extractPair_wellFormed line st.vars.junk st.vars.rss 'R' t ht (by decide) (hw h)
    rw [if_pos h]
    simp only [processLine, n0, n1, e.2 h, if_true, if_false, hv, clamp]
  · have n : ¬ List.take 3 line = "Rss".toList := fun h1 => h (e.1 h1)
    rw [if_neg h]
    unfold processLine
    simp only [n, if_false]
    split_ifs <;> rfl

theorem processLine_pss (st : ParseState) (line : List Char)
    (hw : beginsWith "Pss".toList line = true → wellFormed line = true) :
    (processLine st line).process.pss =
      if beginsWith "Pss".toList line then wrap64 (st.process.pss + clamp (lineValue line))
      else st.process.pss := by
  have e := take_eq_iff_beginsWith "Pss".toList line
  rw [show "Pss".toList.length = 3 from rfl] at e
  by_cases h : beginsWith "Pss".toList line = true
  · have n0 : ¬ List.take 6 line = "Shared".toList := fun h1 => by
      have h2 := (take_eq_iff_beginsWith "Shared".toList line).1 h1
      exact beginsWith_exclusive "Pss".toList "Shared".toList line (by decide) (by decide) h h2
    have n1 : ¬ List.take 7 line = "Private".toList := fun h1 => by
      have h2 := (take_eq_iff_beginsWith "Private".toList line).1 h1
      exact beginsWith_exclusive "Pss".toList "Private".toList line (by decide) (by decide) h h2
    have n2 : ¬ List.take 3 line = "Rss".toList := fun h1 => by
      have h2 := (take_eq_iff_beginsWith "Rss".toList line).1 h1
      exact beginsWith_exclusive "Pss".toList "Rss".toList line (by decide) (by decide) h h2
    obtain ⟨t, ht⟩ := beginsWith_head "Pss".toList line 'P' ['s', 's'] rfl h
    have hv := extractPair_wellFormed line st.vars.junk st.vars.pss 'P' t ht (by decide) (hw h)
    rw [if_pos h]
    simp only [processLine, n0, n1, n2, e.2 h, if_true, if_false, hv, clamp,
      (by decide : ¬ "Pss".toList = "Rss".toList)]
  · have n : ¬ List.take 3 line = "Pss".toList := fun h1 => h (e.1 h1)
    rw [if_neg h]
    unfold processLine
    simp only [n, if_false]
    split_ifs <;> rfl

theorem processLine_swap (st : ParseState) (line : List Char)
    (hw : beginsWith "Swap:".toList line = true → wellFormed line = true) :
    (processLine st line).process.swap =
      if beginsWith "Swap:".toList line then wrap64 (st.process.swap + clamp (lineValue line))
      else st.process.swap := by
  have e := take_eq_iff_beginsWith "Swap:".toList line
  rw [show "Swap:".toList.length = 5 from rfl] at e
  by_cases h : beginsWith "Swap:".toList line = true
  · have n0 : ¬ List.take 6 line = "Shared".toList := fun h1 => by
      have h2 := (take_eq_iff_beginsWith "Shared".toList line).1 h1
      exact beginsWith_exclusive "Swap:".toList "Shared".toList line (by decide) (by decide) h h2
    have n1 : ¬ List.take 7 line = "Private".toList := fun h1 => by
      have h2 := (take_eq_iff_beginsWith "Private".toList line).1 h1
      exact beginsWith_exclusive "Swap:".toList "Private".toList line (by decide) (by decide) h h2
    have n2 : ¬ List.take 3 line = "Rss".toList := fun h1 => by
      have h2 := (take_eq_iff_beginsWith "Rss".toList line).1 h1
      exact beginsWith_exclusive "Rss".toList "Swap:".toList line (by decide) (by decide) h2 h
    have n3 : ¬ List.take 3 line = "Pss".toList := fun h1 => by
      have h2 := (take_eq_iff_beginsWith "Pss".toList line).1 h1
      exact beginsWith_exclusive "Pss".toList "Swap:".toList line (by decide) (by decide) h2 h
    obtain ⟨t, ht⟩ := beginsWith_head "Swap:".toList line 'S' ['w', 'a', 'p', ':'] rfl h
    have hv := extractPair_wellFormed line st.vars.junk st.vars.swap 'S' t ht (by decide) (hw h)
    rw [if_pos h]
    simp only [processLine, n0, n1, n2, n3, e.2 h, if_true, if_false, hv, clamp]
  · have n : ¬ List.take 5 line = "Swap:".toList := fun h1 => h (e.1 h1)
    rw [if_neg h]
    unfold processLine
    simp only [n, if_false]
    split_ifs <;> rfl

theorem processLine_swap_pss (st : ParseState) (line : List Char)
    (hw : beginsWith "SwapPss:".toList line = true → wellFormed line = true) :
    (processLine st line).process.swap_pss =
      if beginsWith "SwapPss:".toList line then wrap64 (st.process.swap_pss + clamp (lineValue line))
      else st.process.swap_pss := by
  have e := take_eq_iff_beginsWith "SwapPss:".toList line
  rw [show "SwapPss:".toList.length = 8 from rfl] at e
  by_cases h : beginsWith "SwapPss:".toList line = true
  · have n0 : ¬ List.take 6 line = "Shared".toList := fun h1 => by
      have h2 := (take_eq_iff_beginsWith "Shared".toList line).1 h1
      exact beginsWith_exclusive "Shared".toList "SwapPss:".toList line (by decide) (by decide) h2 h
    have n1 : ¬ List.take 7 line = "Private".toList := fun h1 => by
      have h2 := (take_eq_iff_beginsWith "Private".toList line).1 h1
      exact beginsWith_exclusive "Private".toList "SwapPss:".toList line (by decide) (by decide) h2 h
    have n2 : ¬ List.take 3 line = "Rss".toList := fun h1 => by
      have h2 := (take_eq_iff_beginsWith "Rss".toList line).1 h1
      exact beginsWith_exclusive "Rss".toList "SwapPss:".toList line (by decide) (by decide) h2 h
    have n3 : ¬ List.take 3 line = "Pss".toList := fun h1 => by
      have h2 := (take_eq_iff_beginsWith "Pss".toList line).1 h1
      exact beginsWith_exclusive "Pss".toList "SwapPss:".toList line (by decide) (by decide) h2 h
    have n4 : ¬ List.take 5 line = "Swap:".toList := fun h1 => by
      have h2 := (take_eq_iff_beginsWith "Swap:".toList line).1 h1
      exact beginsWith_exclusive "Swap:".toList "SwapPss:".toList line (by decide) (by decide) h2 h
    obtain ⟨t, ht⟩ := beginsWith_head "SwapPss:".toList line 'S' ['w', 'a', 'p', 'P', 's', 's', ':'] rfl h
    have hv := extractPair_wellFormed line st.vars.junk st.vars.swap_pss 'S' t ht (by decide) (hw h)
    rw [if_pos h]
    simp only [processLine, n0, n1, n2, n3, n4, e.2 h, if_true, if_false, hv, clamp]
  · have n : ¬ List.take 8 line = "SwapPss:".toList := fun h1 => h (e.1 h1)
    rw [if_neg h]
    unfold processLine
    simp only [n, if_false]
    split_ifs <;> rfl

theorem fieldSum_cons (label line : List Char) (lines : List (List Char)) :
    fieldSum label (line :: lines) =
      (if beginsWith label line then lineValue line else 0) + fieldSum label lines := by
  unfold fieldSum
  by_cases h : beginsWith label line = true
  · simp [List.filter, h]
  · simp [List.filter, h]

theorem foldl_total (get : Process → Int) (label : List Char)
    (hstep : ∀ (st : ParseState) (line : List Char),
      (beginsWith label line = true → wellFormed line = true) →
      get (processLine st line).process =
        if beginsWith label line then wrap64 (get st.process + clamp (lineValue line))
        else get st.process) :
    ∀ (lines : List (List Char)) (st : ParseState),
      (∀ line ∈ lines, beginsWith label line = true → wellFormed line = true) →
      0 ≤ get st.process →
      get st.process + (fieldSum label lines : Int) ≤ INT64_MAX →
      get (lines.foldl processLine st).process = get st.process + (fieldSum label lines : Int) := by
  intro lines
  induction lines with
  | nil => intro st _ _ _; simp [fieldSum]
  | cons line lines ih =>
    intro st hform h0 hfit
    rw [fieldSum_cons] at hfit ⊢
    have hs := hstep st line (hform line (List.mem_cons_self _ _))
    have hform2 : ∀ l ∈ lines, beginsWith label l = true → wellFormed l = true :=
      fun l hl => hform l (List.mem_cons_of_mem _ hl)
    rw [List.foldl_cons]
    have hnn : (0 : Int) ≤ (fieldSum label lines : Int) := Int.ofNat_nonneg _
    unfold INT64_MAX at hfit
    by_cases h : beginsWith label line = true
    · rw [if_pos h] at hs hfit ⊢
      push_cast at hfit ⊢
      have hv : (0 : Int) ≤ (lineValue line : Int) := Int.ofNat_nonneg _
      have hc : clamp (lineValue line) = (lineValue line : Int) := by
        unfold clamp INT64_MAX
        rw [if_neg]; omega
      rw [hc, wrap64_of_range _ (by omega) (by omega)] at hs
      rw [ih _ hform2 (by rw [hs]; omega) (by rw [hs]; unfold INT64_MAX; omega), hs]
      omega
    · rw [if_neg h] at hs hfit ⊢
      push_cast at hfit ⊢
      rw [ih _ hform2 (by rw [hs]; exact h0) (by rw [hs]; unfold INT64_MAX; omega), hs]
      omega

/-- C1 (amended): for every sequence of lines in which each line that begins
with one of the six labels has the form `<label-token> <non-negative integer>
...`, and in which the sum of the values for each label fits in `int64_t`,
each of the six totals after the read loop equals the arithmetic sum of the
values of the lines that begin with its label. -/
theorem parse_totals_eq_sums (name : List Char) (lines : List (List Char))
    (hform : ∀ line ∈ lines, ∀ label ∈ labels, beginsWith label line = true → wellFormed line = true)
    (hfit : ∀ label ∈ labels, (fieldSum label lines : Int) ≤ INT64_MAX) :
    (parseLines (Process.init name) lines).shared = (fieldSum "Shared".toList lines : Int)
    ∧ (parseLines (Process.init name) lines).priv = (fieldSum "Private".toList lines : Int)
    ∧ (parseLines (Process.init name) lines).rss = (fieldSum "Rss".toList lines : Int)
    ∧ (parseLines (Process.init name) lines).pss = (fieldSum "Pss".toList lines : Int)
    ∧ (parseLines (Process.init name) lines).swap = (fieldSum "Swap:".toList lines : Int)
    ∧ (parseLines (Process.init name) lines).swap_pss = (fieldSum "SwapPss:".toList lines : Int) := by
  have key : ∀ (get : Process → Int) (label : List Char), label ∈ labels →
      get (Process.init name) = 0 →
      (∀ (st : ParseState) (line : List Char),
        (beginsWith label line = true → wellFormed line = true) →
        get (processLine st line).process =
          if beginsWith label line then wrap64 (get st.process + clamp (lineValue line))
          else get st.process) →
      get (parseLines (Process.init name) lines) = (fieldSum label lines : Int) := by
    intro get label hl h0 hstep
    have := foldl_total get label hstep lines ⟨Process.init name, Locals.init⟩
      (fun line hline => hform line hline label hl) (by simp [h0]) (by simpa [h0] using hfit label hl)
    simpa [parseLines, h0] using this
  refine ⟨?_, ?_, ?_, ?_, ?_, ?_⟩
  · exact key (fun p => p.shared) _ (by simp [labels]) rfl processLine_shared
  · exact key (fun p => p.priv) _ (by simp [labels]) rfl processLine_priv
  · exact key (fun p => p.rss) _ (by simp [labels]) rfl processLine_rss
  · exact key (fun p => p.pss) _ (by simp [labels]) rfl processLine_pss
  · exact key (fun p => p.swap) _ (by simp [labels]) rfl processLine_swap
  · exact key (fun p => p.swap_pss) _ (by simp [labels]) rfl processLine_swap_pss

/-- Witness for C1: two `Rss:` lines with 4 and 6 among other lines give 10. -/
theorem parse_totals_eq_sums_witness :
    (parseLines (Process.init "sh".toList)
        ["Rss:    4 kB".toList, "Name: x".toList, "Rss: 6 kB".toList, "Shared_Clean: 3 kB".toList]).rss
      = ((4 + 6 : Nat) : Int) :=
  (parse_totals_eq_sums "sh".toList
    ["Rss:    4 kB".toList, "Name: x".toList, "Rss: 6 kB".toList, "Shared_Clean: 3 kB".toList]
    (by decide) (by decide)).2.2.1

/-- C1 as stated fails: a single well-formed `Rss:` line whose number is
2^63 leaves the total at 2^63 - 1, not at the value of the line. -/
theorem parse_overflow :
    wellFormed "Rss: 9223372036854775808 kB".toList = true
    ∧ (parseLines (Process.init []) ["Rss: 9223372036854775808 kB".toList]).rss
        ≠ (fieldSum "Rss".toList ["Rss: 9223372036854775808 kB".toList] : Int) := by
  decide

/-! ## The enumeration keeps the records with a non-zero total (C2, C3) -/

theorem foldl_visitEntry (entries : List DirEntry) (list : ProcList) :
    entries.foldl visitEntry list =
      list ++ ((entries.filter isProcessDir).map (fun dentry => getProcessData dentry.dir)).filter
        (fun p => decide (p.rss ≠ 0)) := by
  induction entries generalizing list with
  | nil => simp
  | cons dentry entries ih =>
    rw [List.foldl_cons, ih]
    unfold visitEntry
    by_cases hd : isProcessDir dentry = true
    · have hd2 : (dentry.doesExist && dentry.is_directory && isNumber dentry.filename) = true := hd
      by_cases hr : (getProcessData dentry.dir).rss = 0
      · simp [List.filter_cons, hd, hd2, hr]
      · simp [List.filter_cons, hd, hd2, hr]
    · have hd2 : ¬ (dentry.doesExist && dentry.is_directory && isNumber dentry.filename) = true := hd
      rw [if_neg hd2]
      simp [List.filter_cons, hd]

theorem createProcessList_eq (list : ProcList) (proc : ProcRoot) :
    createProcessList list proc =
      list ++ (parsedRecords proc).filter (fun p => decide (p.rss ≠ 0)) := by
  unfold createProcessList parsedRecords
  split_ifs
  · exact foldl_visitEntry _ _
  · simp

/-- C2 (amended): every record in the list `createProcessList` produces for
`main` has a total `rss` different from 0. -/
theorem createProcessList_rss_ne_zero (proc : ProcRoot) (p : Process)
    (hp : p ∈ createProcessList [] proc) : p.rss ≠ 0 := by
  rw [createProcessList_eq, List.nil_append] at hp
  simpa using (List.mem_filter.1 hp).2

/-- Witness for C2: the one record of a root with one process directory. -/
theorem createProcessList_rss_ne_zero_witness :
    (⟨"sh".toList, 0, 0, 7, 0, 0, 0⟩ : Process).rss ≠ 0 :=
  createProcessList_rss_ne_zero
    ⟨true, true, [⟨"12".toList, true, true,
      ⟨.regular (some "sh\n".toList), .regular (some "Rss: 7 kB\n".toList), .missing⟩⟩]⟩
    ⟨"sh".toList, 0, 0, 7, 0, 0, 0⟩ (by decide)

/-- C2 as stated fails: a process directory whose summary file carries a
negative number after `Rss:` yields a record with a negative total, and the
test for a non-zero total keeps it. -/
theorem createProcessList_keeps_negative :
    createProcessList []
        ⟨true, true, [⟨"12".toList, true, true,
          ⟨.regular (some "sh\n".toList), .regular (some "Rss: -5 kB\n".toList), .missing⟩⟩]⟩
      = [⟨"sh".toList, 0, 0, -5, 0, 0, 0⟩]
    ∧ ¬ (0 < (⟨"sh".toList, 0, 0, -5, 0, 0, 0⟩ : Process).rss) := by
  decide

/-- C3: the list `createProcessList` produces is the sequence of parsed
records in discovery order with exactly the records whose `rss` total is 0
removed; no record with a positive total is lost and the kept records stand
in discovery order. -/
theorem createProcessList_is_filter (proc : ProcRoot) :
    createProcessList [] proc = (parsedRecords proc).filter (fun p => decide (p.rss ≠ 0))
    ∧ (∀ p ∈ parsedRecords proc, 0 < p.rss → p ∈ createProcessList [] proc)
    ∧ (∀ p ∈ createProcessList [] proc, p.rss ≠ 0)
    ∧ List.Sublist (createProcessList [] proc) (parsedRecords proc) := by
  have h := createProcessList_eq [] proc
  rw [List.nil_append] at h
  refine ⟨h, ?_, ?_, ?_⟩
  · intro p hp hpos
    rw [h]
    exact List.mem_filter.2 ⟨hp, by simpa using (ne_of_gt hpos)⟩
  · intro p hp
    rw [h] at hp
    simpa using (List.mem_filter.1 hp).2
  · rw [h]
    exact List.filter_sublist _

/-! ## A label without a number (C4) -/

/-- C4, the code at the failing input: after `Rss: 5 kB` the total is 5; a
following line `Rss:` or `Rss: ` without a number adds 5 once more, because
the extraction leaves the loop variable untouched, while a following line
`Rss: abc kB` adds nothing. -/
theorem missing_number_repeats_previous :
    (parseLines (Process.init []) ["Rss: 5 kB".toList]).rss = 5
    ∧ (parseLines (Process.init []) ["Rss: 5 kB".toList, "Rss:".toList]).rss = 10
    ∧ (parseLines (Process.init []) ["Rss: 5 kB".toList, "Rss: ".toList]).rss = 10
    ∧ (parseLines (Process.init []) ["Rss: 5 kB".toList, "Rss: abc kB".toList]).rss = 5 := by
  decide

/-! ## An empty list (C7) -/

/-- C7, the code on an empty list: all widths are 0, the first header cell
asks `spaceGen` for `0 - 6 + 4` blanks in unsigned arithmetic, the string
constructor throws, and the run ends with nothing written and without
returning 0. This is what every run does when the process root does not
exist. -/
theorem report_empty_list :
    (∀ config : Config, report config [] = ⟨[], Exit.uncaught Exception.length_error⟩)
    ∧ (∀ (args : List GetoptResult) (is_directory : Bool) (entries : List DirEntry),
        main args ⟨false, is_directory, entries⟩
          = ⟨[], Exit.uncaught Exception.length_error⟩) := by
  refine ⟨fun _ => rfl, ?_⟩
  intro args is_directory entries
  unfold main
  have h : createProcessList [] ⟨false, is_directory, entries⟩ = [] := rfl
  rw [h]
  generalize parseCommandLine args ⟨false, false, SortMode.None⟩ = config
  rfl

/-! ## The help option (C8) -/

theorem parseArgument_help (config : Config) (r : GetoptResult) :
    parseArgument { config with help := true } r =
      ({ (parseArgument config r).1 with help := true }, (parseArgument config r).2) := by
  unfold parseArgument
  dsimp only
  split_ifs <;> rfl

theorem parseCommandLine_cons (r : GetoptResult) (rs : List GetoptResult) (config : Config) :
    parseCommandLine (r :: rs) config =
      if (parseArgument config r).2 then parseCommandLine rs (parseArgument config r).1
      else (parseArgument config r).1 := by
  rfl

theorem parseCommandLine_help (args : List GetoptResult) (config : Config) :
    parseCommandLine args { config with help := true } =
      { parseCommandLine args config with help := true } := by
  induction args generalizing config with
  | nil => rfl
  | cons r rs ih =>
    rw [parseCommandLine_cons, parseCommandLine_cons, parseArgument_help]
    by_cases h : (parseArgument config r).2 = true
    · simp only [h, if_true]
      exact ih _
    · simp only [h, if_false]
      rfl

theorem report_help (config : Config) (b : Bool) (list : ProcList) :
    report { config with help := b } list = report config list := by
  rfl

/-- C8, the code with the help option: `parseCommandLine` sets `config.help`,
but `main` never reads it and never calls `help`; the run is the same as
without the option, and for a root with one process it prints the table. -/
theorem help_option_is_ignored :
    (∀ (optarg : List Char) (args : List GetoptResult) (proc : ProcRoot),
      main (⟨104, optarg⟩ :: args) proc = main args proc)
    ∧ main [⟨104, []⟩]
        ⟨true, true, [⟨"12".toList, true, true,
          ⟨.regular (some "sh\n".toList), .regular (some "Rss: 7 kB\n".toList), .missing⟩⟩]⟩
      = ⟨("    shared   private       rss  name\n".toList ++ separator
          ++ "\n     0 KiB     0 KiB     7 KiB  sh\n".toList), Exit.returned 0⟩ := by
  refine ⟨?_, by decide⟩
  intro optarg args proc
  unfold main
  have h : parseCommandLine (⟨104, optarg⟩ :: args) ⟨false, false, SortMode.None⟩
      = { parseCommandLine args ⟨false, false, SortMode.None⟩ with help := true } := by
    rw [← parseCommandLine_help]
    rfl
  rw [h]
  exact report_help _ _ _

/-! ## An unrecognised sort key (C9) -/

theorem parseArgument_unknown_key (config : Config) (r : GetoptResult)
    (h115 : r.argument = 115) (hkey : r.optarg ∉ sortKeys) :
    parseArgument config r = (config, true) := by
  simp only [sortKeys, List.mem_cons, List.mem_singleton, not_or, List.not_mem_nil,
    or_false] at hkey
  obtain ⟨h1, h2, h3, h4, h5⟩ := hkey
  unfold parseArgument
  simp [h115, h1, h2, h3, h4, h5]

theorem parseCommandLine_skip_unknown (args : List GetoptResult) (config : Config)
    (hkey : ∀ r ∈ args, r.argument = 115 → r.optarg ∉ sortKeys) :
    parseCommandLine args config =
      parseCommandLine (args.filter (fun r => decide (r.argument ≠ 115))) config := by
  induction args generalizing config with
  | nil => rfl
  | cons r rs ih =>
    have hrs : ∀ r ∈ rs, r.argument = 115 → r.optarg ∉ sortKeys :=
      fun x hx => hkey x (List.mem_cons_of_mem _ hx)
    by_cases h : r.argument = 115
    · rw [List.filter_cons_of_neg (by simpa using h)]
      rw [parseCommandLine, parseArgument_unknown_key config r h (hkey r (List.mem_cons_self _ _) h)]
      exact ih config hrs
    · rw [List.filter_cons_of_pos (by simpa using h)]
      rw [parseCommandLine, parseCommandLine]
      split_ifs
      · exact ih _ hrs
      · rfl

theorem parseArgument_no_sort (config : Config) (r : GetoptResult) (h : r.argument ≠ 115) :
    (parseArgument config r).1.sort = config.sort := by
  unfold parseArgument
  dsimp only
  split_ifs <;> rfl

theorem parseCommandLine_no_sort (args : List GetoptResult) (config : Config)
    (hno : ∀ r ∈ args, r.argument ≠ 115) :
    (parseCommandLine args config).sort = config.sort := by
  induction args generalizing config with
  | nil => rfl
  | cons r rs ih =>
    have h := hno r (List.mem_cons_self _ _)
    have hrs : ∀ r ∈ rs, r.argument ≠ 115 := fun x hx => hno x (List.mem_cons_of_mem _ hx)
    rw [parseCommandLine_cons]
    split_ifs
    · rw [ih _ hrs, parseArgument_no_sort config r h]
    · exact parseArgument_no_sort config r h

/-- C9: when every value given to the sort option is a string other than
`shared`, `private`, `rss`, `swap` and `name`, `parseCommandLine` leaves the
sort mode at `Sort::None`, the run of `main` is the same as for the command
line without the sort options, and the list is printed in unchanged
discovery order. -/
theorem unknown_sort_key_keeps_order (args : List GetoptResult)
    (hkey : ∀ r ∈ args, r.argument = 115 → r.optarg ∉ sortKeys) :
    (parseCommandLine args ⟨false, false, SortMode.None⟩).sort = SortMode.None
    ∧ (∀ proc : ProcRoot,
        main args proc = main (args.filter (fun r => decide (r.argument ≠ 115))) proc)
    ∧ (∀ list : ProcList,
        sortList (parseCommandLine args ⟨false, false, SortMode.None⟩).sort list = list) := by
  have h1 := parseCommandLine_skip_unknown args ⟨false, false, SortMode.None⟩ hkey
  have h2 : (parseCommandLine args ⟨false, false, SortMode.None⟩).sort = SortMode.None := by
    rw [h1]
    exact parseCommandLine_no_sort _ _ (fun r hr => by simpa using (List.mem_filter.1 hr).2)
  refine ⟨h2, ?_, ?_⟩
  · intro proc
    unfold main
    rw [h1]
  · intro list
    rw [h2]
    rfl

/-- Witness for C9: the command line `-S --sort=size`. -/
theorem unknown_sort_key_keeps_order_witness :
    (parseCommandLine [⟨83, []⟩, ⟨115, "size".toList⟩] ⟨false, false, SortMode.None⟩).sort
      = SortMode.None :=
  (unknown_sort_key_keeps_order [⟨83, []⟩, ⟨115, "size".toList⟩] (by decide)).1

/-! ## Column widths (C10) -/

theorem tdiv_ten_ofNat (n : Nat) : (n : Int).tdiv 10 = ((n / 10 : Nat) : Int) :=
  (Int.ofNat_tdiv n 10).symm

theorem tdiv_ten_nonpos (value : Int) (h : value ≤ 0) : value.tdiv 10 ≤ 0 := by
  have h1 : value = -(-value) := by omega
  rw [h1, Int.neg_tdiv]
  have := Int.tdiv_nonneg (a := -value) (b := 10) (by omega) (by omega)
  omega

theorem lenOfNumFuel_step (fuel : Nat) (value : Int) :
    lenOfNumFuel (fuel + 1) value =
      if value.tdiv 10 > 0 then 1 + lenOfNumFuel fuel (value.tdiv 10) else 1 := by
  rfl

theorem lenOfNumFuel_pos (fuel : Nat) (value : Int) : 1 ≤ lenOfNumFuel fuel value := by
  induction fuel generalizing value with
  | zero => simp [lenOfNumFuel]
  | succ f ih =>
    unfold lenOfNumFuel
    dsimp only
    split_ifs
    · have := ih (value.tdiv 10); omega
    · exact le_refl _

theorem lenOfNumFuel_nat (fuel n : Nat) (h : n ≤ fuel) :
    lenOfNumFuel fuel (n : Int) = ((Nat.toDigitsCore 10 (fuel + 1) n []).length : Int) := by
  induction fuel generalizing n with
  | zero =>
    have : n = 0 := by omega
    subst this
    rfl
  | succ f ih =>
    unfold lenOfNumFuel
    dsimp only
    have hdiv := tdiv_ten_ofNat n
    rw [hdiv]
    rw [Nat.toDigitsCore]
    by_cases h0 : n / 10 = 0
    · simp [h0]
    · have hpos : ((n / 10 : Nat) : Int) > 0 := by omega
      rw [if_pos hpos, ih (n / 10) (by omega)]
      simp only [h0, if_false]
      rw [Nat.toDigitsCore_lens_eq]
      push_cast
      ring

theorem lenOfNum_eq_decimalDigits (value : Int) (h : 0 ≤ value) :
    lenOfNum value = (decimalDigits value.toNat : Int) := by
  obtain ⟨n, rfl⟩ := Int.eq_ofNat_of_zero_le h
  unfold lenOfNum decimalDigits Nat.toDigits
  simpa using lenOfNumFuel_nat n n (le_refl _)

theorem lenOfNumFuel_succ (fuel n : Nat) (h : n ≤ fuel) :
    lenOfNumFuel (fuel + 1) (n : Int) = lenOfNumFuel fuel (n : Int) := by
  induction fuel generalizing n with
  | zero =>
    have : n = 0 := by omega
    subst this
    rfl
  | succ f ih =>
    have hdiv := tdiv_ten_ofNat n
    rw [lenOfNumFuel_step (f + 1) (n : Int), lenOfNumFuel_step f (n : Int), hdiv]
    by_cases h0 : ((n / 10 : Nat) : Int) > 0
    · rw [if_pos h0, if_pos h0, ih (n / 10) (by omega)]
    · rw [if_neg h0, if_neg h0]

theorem lenOfNumFuel_enough (fuel n : Nat) (h : n ≤ fuel) :
    lenOfNumFuel fuel (n : Int) = lenOfNumFuel n (n : Int) := by
  induction fuel with
  | zero =>
    have : n = 0 := by omega
    subst this
    rfl
  | succ f ih =>
    by_cases hn : n = f + 1
    · subst hn; rfl
    · rw [lenOfNumFuel_succ f n (by omega)]
      exact ih (by omega)

/-- The recursion of the source: `lenOfNum(value)` is `1 + lenOfNum(value / 10)`
when `value / 10` is positive and 1 otherwise. -/
theorem lenOfNum_eq (value : Int) :
    lenOfNum value = if value.tdiv 10 > 0 then 1 + lenOfNum (value.tdiv 10) else 1 := by
  by_cases h : 0 ≤ value
  · obtain ⟨n, rfl⟩ := Int.eq_ofNat_of_zero_le h
    have hdiv := tdiv_ten_ofNat n
    unfold lenOfNum
    rw [hdiv]
    simp only [Int.natAbs_ofNat]
    rcases n with _ | m
    · rfl
    · rw [lenOfNumFuel]
      simp only [tdiv_ten_ofNat]
      by_cases h0 : (((m + 1) / 10 : Nat) : Int) > 0
      · rw [if_pos h0, if_pos h0, lenOfNumFuel_enough m ((m + 1) / 10) (by omega)]
      · rw [if_neg h0, if_neg h0]
  · have hneg : ¬ value.tdiv 10 > 0 := by
      have : value.tdiv 10 ≤ 0 := tdiv_ten_nonpos value (by omega)
      omega
    rw [if_neg hneg]
    unfold lenOfNum
    rcases hf : value.natAbs with _ | m
    · rfl
    · rw [lenOfNumFuel]
      simp only [if_neg hneg]

theorem lenOfNum_pos (value : Int) : 1 ≤ lenOfNum value := lenOfNumFuel_pos _ _

theorem lenOfNum_mono_nat (w : Nat) : ∀ v : Nat, v ≤ w → lenOfNum (v : Int) ≤ lenOfNum (w : Int) := by
  induction w using Nat.strong_induction_on with
  | _ w ih =>
    intro v hvw
    have hdv := tdiv_ten_ofNat v
    have hdw := tdiv_ten_ofNat w
    rw [lenOfNum_eq (v : Int), lenOfNum_eq (w : Int), hdv, hdw]
    by_cases hv : ((v / 10 : Nat) : Int) > 0
    · have hw : ((w / 10 : Nat) : Int) > 0 := by omega
      rw [if_pos hv, if_pos hw]
      have := ih (w / 10) (by omega) (v / 10) (by omega)
      omega
    · rw [if_neg hv]
      split_ifs
      · have := lenOfNum_pos ((w / 10 : Nat) : Int); omega
      · exact le_refl _

theorem lenOfNum_mono (v w : Int) (h0 : 0 ≤ v) (h : v ≤ w) : lenOfNum v ≤ lenOfNum w := by
  obtain ⟨a, rfl⟩ := Int.eq_ofNat_of_zero_le h0
  obtain ⟨b, rfl⟩ := Int.eq_ofNat_of_zero_le (le_trans h0 h)
  exact lenOfNum_mono_nat b a (by omega)

theorem procLens_fold (list : ProcList) (init : Process) :
    (list.foldl lensStep init).shared
        = (list.map (fun e => e.shared)).foldl (fun w v => max (lenOfNum v + 5) w) init.shared
    ∧ (list.foldl lensStep init).priv
        = (list.map (fun e => e.priv)).foldl (fun w v => max (lenOfNum v + 5) w) init.priv
    ∧ (list.foldl lensStep init).rss
        = (list.map (fun e => e.rss)).foldl (fun w v => max (lenOfNum v + 5) w) init.rss
    ∧ (list.foldl lensStep init).swap
        = (list.map (fun e => e.swap)).foldl (fun w v => max (lenOfNum v + 5) w) init.swap := by
  induction list generalizing init with
  | nil => exact ⟨rfl, rfl, rfl, rfl⟩
  | cons e es ih =>
    simp only [List.foldl_cons, List.map_cons]
    obtain ⟨h1, h2, h3, h4⟩ := ih (lensStep init e)
    exact ⟨h1, h2, h3, h4⟩

theorem foldl_width_lower (vals : List Int) (w0 : Int) :
    w0 ≤ vals.foldl (fun w v => max (lenOfNum v + 5) w) w0
    ∧ ∀ v ∈ vals, lenOfNum v + 5 ≤ vals.foldl (fun w v => max (lenOfNum v + 5) w) w0 := by
  induction vals generalizing w0 with
  | nil => simp
  | cons a as ih =>
    simp only [List.foldl_cons, List.mem_cons]
    obtain ⟨h1, h2⟩ := ih (max (lenOfNum a + 5) w0)
    refine ⟨le_trans (le_max_right _ _) h1, ?_⟩
    rintro v (rfl | hv)
    · exact le_trans (le_max_left _ _) h1
    · exact h2 v hv

theorem foldl_width_upper (vals : List Int) (w0 m : Int)
    (h : ∀ v ∈ vals, 0 ≤ v ∧ v ≤ m) :
    vals.foldl (fun w v => max (lenOfNum v + 5) w) w0 ≤ max (lenOfNum m + 5) w0 := by
  induction vals generalizing w0 with
  | nil => simp
  | cons a as ih =>
    simp only [List.foldl_cons]
    have ha := h a (List.mem_cons_self _ _)
    have hm := lenOfNum_mono a m ha.1 ha.2
    refine le_trans (ih _ (fun v hv => h v (List.mem_cons_of_mem _ hv))) ?_
    simp only [max_le_iff, le_max_iff]
    omega

theorem width_of_largest (vals : List Int) (m : Int) (hm : m ∈ vals)
    (h : ∀ v ∈ vals, 0 ≤ v ∧ v ≤ m) :
    vals.foldl (fun w v => max (lenOfNum v + 5) w) 0 = (decimalDigits m.toNat : Int) + 5 := by
  rw [← lenOfNum_eq_decimalDigits m (h m hm).1]
  apply le_antisymm
  · have := foldl_width_upper vals 0 m h
    have hp := lenOfNum_pos m
    rw [max_eq_left (by omega)] at this
    exact this
  · exact (foldl_width_lower vals 0).2 m hm

/-- C10: for a list of records with non-negative values, the width computed
for each of the shared, private, rss and swap columns is the number of
decimal digits of the largest value of that field in the list plus 5, and the
width of a column is determined by the values of that column alone. -/
theorem column_widths (list : ProcList)
    (hnn : ∀ e ∈ list, 0 ≤ e.shared ∧ 0 ≤ e.priv ∧ 0 ≤ e.rss ∧ 0 ≤ e.swap) :
    (∀ m ∈ list.map (fun e => e.shared), (∀ v ∈ list.map (fun e => e.shared), v ≤ m) →
        (procLens list).shared = (decimalDigits m.toNat : Int) + 5)
    ∧ (∀ m ∈ list.map (fun e => e.priv), (∀ v ∈ list.map (fun e => e.priv), v ≤ m) →
        (procLens list).priv = (decimalDigits m.toNat : Int) + 5)
    ∧ (∀ m ∈ list.map (fun e => e.rss), (∀ v ∈ list.map (fun e => e.rss), v ≤ m) →
        (procLens list).rss = (decimalDigits m.toNat : Int) + 5)
    ∧ (∀ m ∈ list.map (fun e => e.swap), (∀ v ∈ list.map (fun e => e.swap), v ≤ m) →
        (procLens list).swap = (decimalDigits m.toNat : Int) + 5)
    ∧ (∀ other : ProcList, other.map (fun e => e.shared) = list.map (fun e => e.shared) →
        (procLens other).shared = (procLens list).shared)
    ∧ (∀ other : ProcList, other.map (fun e => e.priv) = list.map (fun e => e.priv) →
        (procLens other).priv = (procLens list).priv)
    ∧ (∀ other : ProcList, other.map (fun e => e.rss) = list.map (fun e => e.rss) →
        (procLens other).rss = (procLens list).rss)
    ∧ (∀ other : ProcList, other.map (fun e => e.swap) = list.map (fun e => e.swap) →
        (procLens other).swap = (procLens list).swap) := by
  obtain ⟨f1, f2, f3, f4⟩ := procLens_fold list ⟨[], 0, 0, 0, 0, 0, 0⟩
  refine ⟨?_, ?_, ?_, ?_, ?_, ?_, ?_, ?_⟩
  · intro m hm hmax
    unfold procLens
    rw [f1]
    refine width_of_largest _ m hm (fun v hv => ⟨?_, hmax v hv⟩)
    obtain ⟨e, he, rfl⟩ := List.mem_map.1 hv
    exact (hnn e he).1
  · intro m hm hmax
    unfold procLens
    rw [f2]
    refine width_of_largest _ m hm (fun v hv => ⟨?_, hmax v hv⟩)
    obtain ⟨e, he, rfl⟩ := List.mem_map.1 hv
    exact (hnn e he).2.1
  · intro m hm hmax
    unfold procLens
    rw [f3]
    refine width_of_largest _ m hm (fun v hv => ⟨?_, hmax v hv⟩)
    obtain ⟨e, he, rfl⟩ := List.mem_map.1 hv
    exact (hnn e he).2.2.1
  · intro m hm hmax
    unfold procLens
    rw [f4]
    refine width_of_largest _ m hm (fun v hv => ⟨?_, hmax v hv⟩)
    obtain ⟨e, he, rfl⟩ := List.mem_map.1 hv
    exact (hnn e he).2.2.2
  · intro other ho
    unfold procLens
    rw [f1, (procLens_fold other ⟨[], 0, 0, 0, 0, 0, 0⟩).1, ho]
  · intro other ho
    unfold procLens
    rw [f2, (procLens_fold other ⟨[], 0, 0, 0, 0, 0, 0⟩).2.1, ho]
  · intro other ho
    unfold procLens
    rw [f3, (procLens_fold other ⟨[], 0, 0, 0, 0, 0, 0⟩).2.2.1, ho]
  · intro other ho
    unfold procLens
    rw [f4, (procLens_fold other ⟨[], 0, 0, 0, 0, 0, 0⟩).2.2.2, ho]

/-- Witness for C10: shared values 3, 45000 and 7 give the width 5 + 5. -/
theorem column_widths_witness :
    (procLens [⟨"a".toList, 1, 3, 9, 0, 0, 0⟩, ⟨"b".toList, 20, 45000, 800, 0, 12, 0⟩,
      ⟨"c".toList, 300, 7, 70, 0, 5, 0⟩]).shared = ((5 : Nat) : Int) + 5 :=
  (column_widths [⟨"a".toList, 1, 3, 9, 0, 0, 0⟩, ⟨"b".toList, 20, 45000, 800, 0, 12, 0⟩,
      ⟨"c".toList, 300, 7, 70, 0, 5, 0⟩] (by decide)).1 45000 (by decide) (by decide)

/-! ## `std::sort` rearranges the list -/

theorem count_set_of_getElem? {α : Type} [DecidableEq α] (a : List α) (h : Nat) (v old b : α)
    (hold : a[h]? = some old) :
    List.count b (a.set h v) + (if old = b then 1 else 0)
      = List.count b a + (if v = b then 1 else 0) := by
  obtain ⟨hlt, hget⟩ := List.getElem?_eq_some.1 hold
  have hc := List.count_set v b a h hlt
  have hpos : old = b → 0 < List.count b a := by
    intro e
    subst e
    rw [← hget]
    exact List.count_pos_iff.2 (List.getElem_mem _)
  simp only [hget, beq_iff_eq] at hc
  rw [hc]
  by_cases e1 : old = b
  · have := hpos e1
    simp only [e1, if_true]
    omega
  · simp only [e1, if_false]
    omega

/-- Moving the element at `j` into the free slot `h` and freeing `j` instead
keeps the multiset of the array with the held value put into the free slot. -/
theorem set_move_perm {α : Type} [DecidableEq α] (a : List α) (h j : Nat) (v x : α)
    (hh : h < a.length) (hj : a[j]? = some x) :
    ((a.set h x).set j v).Perm (a.set h v) := by
  rw [List.perm_iff_count]
  intro b
  have hold : a[h]? = some a[h] := List.getElem?_eq_getElem hh
  have hj2 : (a.set h x)[j]? = some x := by
    rw [List.getElem?_set]
    split_ifs with e
    · rfl
    · exact hj
  have c1 := count_set_of_getElem? (a.set h x) j v x b hj2
  have c2 := count_set_of_getElem? a h x a[h] b hold
  have c3 := count_set_of_getElem? a h v a[h] b hold
  omega

theorem set_self_of_getElem? {α : Type} (a : List α) (i : Nat) (x : α) (h : a[i]? = some x) :
    a.set i x = a := by
  obtain ⟨hlt, hget⟩ := List.getElem?_eq_some.1 h
  apply List.ext_getElem
  · simp
  · intro n h1 h2
    rw [List.getElem_set]
    split_ifs with e
    · subst e; exact hget.symm
    · rfl

theorem iterSwap_length {α : Type} (a : List α) (i j : Nat) :
    (iterSwap a i j).length = a.length := by
  unfold iterSwap
  split <;> simp

theorem iterSwap_perm {α : Type} [DecidableEq α] (a : List α) (i j : Nat) :
    (iterSwap a i j).Perm a := by
  unfold iterSwap
  split
  · rename_i x y hx hy
    have hi : i < a.length := (List.getElem?_eq_some.1 hx).1
    have := set_move_perm a i j x y hi hy
    rw [set_self_of_getElem? a i x hx] at this
    exact this
  · exact List.Perm.refl _

theorem moveMedianToFirst_length {α : Type} (comp : α → α → Bool) (arr : List α)
    (result a b c : Nat) : (moveMedianToFirst comp arr result a b c).length = arr.length := by
  unfold moveMedianToFirst
  split_ifs <;> exact iterSwap_length _ _ _

theorem moveMedianToFirst_perm {α : Type} [DecidableEq α] (comp : α → α → Bool) (arr : List α)
    (result a b c : Nat) : (moveMedianToFirst comp arr result a b c).Perm arr := by
  unfold moveMedianToFirst
  split_ifs <;> exact iterSwap_perm _ _ _

theorem unguardedPartition_perm {α : Type} [DecidableEq α] (comp : α → α → Bool) (pivot : Nat)
    (fuel : Nat) (a : List α) (first last : Nat) :
    (unguardedPartition comp pivot fuel a first last).1.Perm a
    ∧ (unguardedPartition comp pivot fuel a first last).1.length = a.length := by
  induction fuel generalizing a first last with
  | zero => exact ⟨List.Perm.refl _, rfl⟩
  | succ f ih =>
    unfold unguardedPartition
    dsimp only
    split_ifs
    · exact ⟨List.Perm.refl _, rfl⟩
    · obtain ⟨h1, h2⟩ := ih (iterSwap a (scanUp comp a pivot a.length first)
        (scanDown comp a pivot (last - 1))) (scanUp comp a pivot a.length first + 1)
        (scanDown comp a pivot (last - 1))
      exact ⟨h1.trans (iterSwap_perm _ _ _), by rw [h2, iterSwap_length]⟩

theorem unguardedPartitionPivot_perm {α : Type} [DecidableEq α] (comp : α → α → Bool)
    (a : List α) (first last : Nat) :
    (unguardedPartitionPivot comp a first last).1.Perm a
    ∧ (unguardedPartitionPivot comp a first last).1.length = a.length := by
  unfold unguardedPartitionPivot
  dsimp only
  obtain ⟨h1, h2⟩ := unguardedPartition_perm comp first
    ((moveMedianToFirst comp a first (first + 1) (first + (last - first) / 2) (last - 1)).length + 1)
    (moveMedianToFirst comp a first (first + 1) (first + (last - first) / 2) (last - 1))
    (first + 1) last
  exact ⟨h1.trans (moveMedianToFirst_perm _ _ _ _ _ _),
    by rw [h2, moveMedianToFirst_length]⟩

theorem pushHeap_perm {α : Type} [DecidableEq α] (comp : α → α → Bool) (first topIndex : Nat)
    (value : α) (orig : List α) (fuel : Nat) (a : List α) (holeIndex : Nat)
    (hb : first + holeIndex < a.length) (hp : (a.set (first + holeIndex) value).Perm orig) :
    (pushHeap comp first topIndex value fuel a holeIndex).Perm orig := by
  induction fuel generalizing a holeIndex with
  | zero => exact hp
  | succ f ih =>
    unfold pushHeap
    dsimp only
    split
    · rename_i p hpar
      split_ifs
      · refine ih _ _ ?_ ?_
        · rw [List.length_set]; omega
        · exact (set_move_perm a (first + holeIndex) (first + (holeIndex - 1) / 2) value p hb
            hpar).trans hp
      · exact hp
    · exact hp

theorem adjustHeapLoop_perm {α : Type} [DecidableEq α] (comp : α → α → Bool) (first len : Nat)
    (value : α) (orig : List α) (fuel : Nat) (a : List α) (holeIndex secondChild : Nat)
    (hb : first + holeIndex < a.length) (hp : (a.set (first + holeIndex) value).Perm orig) :
    first + (adjustHeapLoop comp first len fuel a holeIndex secondChild).2.1
        < (adjustHeapLoop comp first len fuel a holeIndex secondChild).1.length
    ∧ ((adjustHeapLoop comp first len fuel a holeIndex secondChild).1.set
        (first + (adjustHeapLoop comp first len fuel a holeIndex secondChild).2.1) value).Perm
        orig := by
  induction fuel generalizing a holeIndex secondChild with
  | zero => exact ⟨hb, hp⟩
  | succ f ih =>
    unfold adjustHeapLoop
    dsimp only
    split_ifs
    · split
      · rename_i x hx
        refine ih _ _ _ ?_ ?_
        · rw [List.length_set]
          exact (List.getElem?_eq_some.1 hx).1
        · exact (set_move_perm a (first + holeIndex) _ value x hb hx).trans hp
      · exact ⟨hb, hp⟩
    · split
      · rename_i x hx
        refine ih _ _ _ ?_ ?_
        · rw [List.length_set]
          exact (List.getElem?_eq_some.1 hx).1
        · exact (set_move_perm a (first + holeIndex) _ value x hb hx).trans hp
      · exact ⟨hb, hp⟩
    · exact ⟨hb, hp⟩

theorem adjustHeap_perm {α : Type} [DecidableEq α] (comp : α → α → Bool) (a : List α)
    (first holeIndex len : Nat) (value : α) (orig : List α)
    (hb : first + holeIndex < a.length) (hp : (a.set (first + holeIndex) value).Perm orig) :
    (adjustHeap comp a first holeIndex len value).Perm orig := by
  obtain ⟨h1, h2⟩ := adjustHeapLoop_perm comp first len value orig len a holeIndex holeIndex hb hp
  unfold adjustHeap
  dsimp only
  split_ifs
  · split
    · rename_i x hx
      refine pushHeap_perm comp first holeIndex value orig _ _ _ ?_ ?_
      · rw [List.length_set]
        exact (List.getElem?_eq_some.1 hx).1
      · exact (set_move_perm _ _ _ value x h1 hx).trans h2
    · exact pushHeap_perm comp first holeIndex value orig _ _ _ h1 h2
  · exact pushHeap_perm comp first holeIndex value orig _ _ _ h1 h2

theorem popHeap_perm {α : Type} [DecidableEq α] (comp : α → α → Bool) (a : List α)
    (first last result : Nat) : (popHeap comp a first last result).Perm a := by
  unfold popHeap
  split
  · rename_i value top hv ht
    refine adjustHeap_perm comp _ first 0 (last - first) value a ?_ ?_
    · rw [List.length_set]
      exact (List.getElem?_eq_some.1 ht).1
    · have := set_move_perm a result first value top (List.getElem?_eq_some.1 hv).1 ht
      rw [set_self_of_getElem? a result value hv] at this
      exact this
  · exact List.Perm.refl _

theorem makeHeapLoop_perm {α : Type} [DecidableEq α] (comp : α → α → Bool) (first len : Nat)
    (parent : Nat) (a : List α) : (makeHeapLoop comp first len parent a).Perm a := by
  induction parent generalizing a with
  | zero =>
    unfold makeHeapLoop
    split
    · rename_i value hv
      refine adjustHeap_perm comp a first 0 len value a (List.getElem?_eq_some.1 hv).1 ?_
      rw [set_self_of_getElem? a (first + 0) value hv]
    · exact List.Perm.refl _
  | succ p ih =>
    unfold makeHeapLoop
    split
    · rename_i value hv
      refine (ih _).trans ?_
      refine adjustHeap_perm comp a first (p + 1) len value a (List.getElem?_eq_some.1 hv).1 ?_
      rw [set_self_of_getElem? a (first + (p + 1)) value hv]
    · exact List.Perm.refl _

theorem makeHeap_perm {α : Type} [DecidableEq α] (comp : α → α → Bool) (a : List α)
    (first last : Nat) : (makeHeap comp a first last).Perm a := by
  unfold makeHeap
  split_ifs
  · exact List.Perm.refl _
  · exact makeHeapLoop_perm _ _ _ _ _

theorem sortHeap_perm {α : Type} [DecidableEq α] (comp : α → α → Bool) (first last : Nat)
    (a : List α) : (sortHeap comp first last a).Perm a := by
  induction last generalizing a with
  | zero => exact List.Perm.refl _
  | succ l ih =>
    unfold sortHeap
    split_ifs
    · exact (ih _).trans (popHeap_perm _ _ _ _ _)
    · exact List.Perm.refl _

theorem heapSelect_perm {α : Type} [DecidableEq α] (comp : α → α → Bool) (a : List α)
    (first middle last : Nat) : (heapSelect comp a first middle last).Perm a := by
  unfold heapSelect
  have key : ∀ (is : List Nat) (b : List α),
      (is.foldl (fun a i => if compAt comp a i first then popHeap comp a first middle i else a)
        b).Perm b := by
    intro is
    induction is with
    | nil => intro b; exact List.Perm.refl _
    | cons i is ih =>
      intro b
      rw [List.foldl_cons]
      refine (ih _).trans ?_
      split_ifs
      · exact popHeap_perm _ _ _ _ _
      · exact List.Perm.refl _
  exact (key _ _).trans (makeHeap_perm _ _ _ _)

theorem partialSort_perm {α : Type} [DecidableEq α] (comp : α → α → Bool) (a : List α)
    (first middle last : Nat) : (partialSort comp a first middle last).Perm a := by
  unfold partialSort
  exact (sortHeap_perm _ _ _ _).trans (heapSelect_perm _ _ _ _ _)

theorem introsortLoop_perm {α : Type} [DecidableEq α] (comp : α → α → Bool) (depth_limit : Nat)
    (a : List α) (first last : Nat) : (introsortLoop comp depth_limit a first last).Perm a := by
  induction depth_limit generalizing a first last with
  | zero =>
    unfold introsortLoop
    split_ifs
    · exact partialSort_perm _ _ _ _ _
    · exact List.Perm.refl _
  | succ d ih =>
    unfold introsortLoop
    dsimp only
    split_ifs
    · exact ((ih _ _ _).trans (ih _ _ _)).trans (unguardedPartitionPivot_perm comp a first last).1
    · exact List.Perm.refl _

/-! ## The final insertion sort -/

theorem insertBack_cons {α : Type} (comp : α → α → Bool) (val x : α) (xs : List α) :
    insertBack comp val (x :: xs) =
      if (x :: xs).all (fun y => comp val y) then val :: x :: xs
      else x :: insertBack comp val xs := by
  rfl

theorem insertBack_snoc_of_comp {α : Type} (comp : α → α → Bool) (val y : α) (pre : List α)
    (h : comp val y = true) : insertBack comp val (pre ++ [y]) = insertBack comp val pre ++ [y] := by
  induction pre with
  | nil => simp [insertBack, h]
  | cons x xs ih =>
    have hall : (x :: (xs ++ [y])).all (fun y => comp val y)
        = (x :: xs).all (fun y => comp val y) := by
      simp [h]
    rw [List.cons_append, insertBack_cons, insertBack_cons, hall, ih]
    split_ifs <;> rfl

theorem insertBack_snoc_of_not {α : Type} (comp : α → α → Bool) (val y : α) (pre : List α)
    (h : comp val y = false) : insertBack comp val (pre ++ [y]) = pre ++ [y, val] := by
  induction pre with
  | nil => simp [insertBack, h]
  | cons x xs ih =>
    have hall : (x :: (xs ++ [y])).all (fun y => comp val y) = false := by
      simp [h]
    rw [List.cons_append, insertBack_cons, hall, ih]
    rfl

theorem take_succ_of_getElem? {α : Type} (a : List α) (i : Nat) (x : α) (h : a[i]? = some x) :
    a.take (i + 1) = a.take i ++ [x] := by
  rw [List.take_succ, h]
  rfl

theorem drop_of_getElem? {α : Type} (a : List α) (i : Nat) (x : α) (h : a[i]? = some x) :
    a.drop i = x :: a.drop (i + 1) := by
  obtain ⟨hlt, hget⟩ := List.getElem?_eq_some.1 h
  rw [← hget]
  exact List.drop_eq_getElem_cons hlt

theorem set_eq_take_cons_drop {α : Type} (a : List α) (i : Nat) (v : α) (h : i < a.length) :
    a.set i v = a.take i ++ v :: a.drop (i + 1) := by
  rw [List.set_eq_take_append_cons_drop, if_pos h]

theorem linearInsertLoop_eq {α : Type} (comp : α → α → Bool) (val : α) (hole : Nat) (a : List α)
    (h : hole < a.length) :
    linearInsertLoop comp val hole a = insertBack comp val (a.take hole) ++ a.drop (hole + 1) := by
  induction hole generalizing a with
  | zero =>
    unfold linearInsertLoop
    rw [set_eq_take_cons_drop a 0 val h]
    simp [insertBack]
  | succ k ih =>
    unfold linearInsertLoop
    have hk : a[k]? = some a[k] := List.getElem?_eq_getElem (by omega)
    rw [hk]
    dsimp only
    rw [take_succ_of_getElem? a k _ hk]
    by_cases hc : comp val a[k] = true
    · rw [if_pos hc, ih _ (by rw [List.length_set]; omega), insertBack_snoc_of_comp comp val _ _ hc]
      rw [List.take_set_of_lt _ _ (by omega : k < k + 1)]
      have hd : (a.set (k + 1) a[k]).drop (k + 1) = a[k] :: a.drop (k + 1 + 1) := by
        rw [set_eq_take_cons_drop a (k + 1) _ h, List.drop_append_of_le_length (by simp; omega)]
        simp [List.drop_take]
      rw [hd]
      simp
    · rw [if_neg hc, insertBack_snoc_of_not comp val _ _ (by simpa using hc)]
      rw [set_eq_take_cons_drop a (k + 1) val h, take_succ_of_getElem? a k _ hk]
      simp only [List.append_assoc, List.cons_append, List.nil_append]

theorem insertBack_perm {α : Type} (comp : α → α → Bool) (val : α) (pre : List α) :
    (insertBack comp val pre).Perm (val :: pre) := by
  induction pre with
  | nil => exact List.Perm.refl _
  | cons x xs ih =>
    rw [insertBack_cons]
    split_ifs
    · exact List.Perm.refl _
    · exact (List.Perm.cons x ih).trans (List.Perm.swap val x xs)

theorem insertBack_length {α : Type} (comp : α → α → Bool) (val : α) (pre : List α) :
    (insertBack comp val pre).length = pre.length + 1 := by
  simpa using (insertBack_perm comp val pre).length_eq

theorem insertBack_sorted {α : Type} (comp : α → α → Bool) (sw : StrictWeak comp) (val : α)
    (pre : List α) (hs : pre.Pairwise (fun x y => comp y x = false)) :
    (insertBack comp val pre).Pairwise (fun x y => comp y x = false) := by
  induction pre with
  | nil => simp [insertBack]
  | cons x xs ih =>
    rw [insertBack_cons]
    rw [List.pairwise_cons] at hs
    split_ifs with hall
    · refine List.Pairwise.cons ?_ (List.Pairwise.cons hs.1 hs.2)
      intro y hy
      exact sw.asymm val y (List.all_eq_true.1 hall y hy)
    · refine List.Pairwise.cons ?_ (ih hs.2)
      intro y hy
      rcases List.mem_cons.1 ((insertBack_perm comp val xs).mem_iff.1 hy) with rfl | hy
      · have hex : ∃ z ∈ x :: xs, comp y z = false := by
          by_contra hcon
          apply hall
          rw [List.all_eq_true]
          intro z hz
          by_contra hz2
          exact hcon ⟨z, hz, by simpa using hz2⟩
        obtain ⟨z, hz, hzc⟩ := hex
        rcases List.mem_cons.1 hz with rfl | hz
        · exact hzc
        · exact sw.negTrans y z x hzc (hs.1 z hz)
      · exact hs.1 y hy

theorem insertBack_filter {α : Type} (comp : α → α → Bool) (keep : α → Bool)
    (hkeep : ∀ v y, keep v = true → comp v y = true → keep y = false) (val : α) (pre : List α) :
    (insertBack comp val pre).filter keep = (pre ++ [val]).filter keep := by
  induction pre with
  | nil => rfl
  | cons x xs ih =>
    rw [insertBack_cons]
    split_ifs with hall
    · by_cases hv : keep val = true
      · have hnone : (x :: xs).filter keep = [] := by
          rw [List.filter_eq_nil_iff]
          intro y hy
          rw [hkeep val y hv (List.all_eq_true.1 hall y hy)]
          exact Bool.false_ne_true
        rw [List.filter_cons_of_pos hv, List.filter_append, hnone]
        simp [hv]
      · rw [List.filter_cons_of_neg hv, List.filter_append]
        simp [hv]
    · rw [List.cons_append, List.filter_cons, List.filter_cons, ih]

theorem unguardedLinearInsert_eq {α : Type} (comp : α → α → Bool) (a : List α) (i : Nat) (val : α)
    (h : a[i]? = some val) :
    unguardedLinearInsert comp a i = insertBack comp val (a.take i) ++ a.drop (i + 1) := by
  unfold unguardedLinearInsert
  rw [h]
  exact linearInsertLoop_eq comp val i a (List.getElem?_eq_some.1 h).1

theorem insertionSortStep_eq {α : Type} (comp : α → α → Bool) (sw : StrictWeak comp) (a : List α)
    (i : Nat) (val : α) (hi : 0 < i) (h : a[i]? = some val)
    (hs : (a.take i).Pairwise (fun x y => comp y x = false)) :
    insertionSortStep comp 0 a i = insertBack comp val (a.take i) ++ a.drop (i + 1) := by
  have hlt : i < a.length := (List.getElem?_eq_some.1 h).1
  have h0 : a[0]? = some a[0] := List.getElem?_eq_getElem (by omega)
  unfold insertionSortStep compAt
  rw [h, h0]
  dsimp only
  split_ifs with hc
  · have htake : a.take i = a[0] :: (a.take i).tail := by
      rcases a with _ | ⟨x, t⟩
      · simp at hlt
      · rcases i with _ | j
        · omega
        · simp
    have hall : (a.take i).all (fun y => comp val y) = true := by
      rw [List.all_eq_true]
      intro y hy
      rw [htake] at hy hs
      rcases List.mem_cons.1 hy with rfl | hy
      · exact hc
      · have hle := (List.pairwise_cons.1 hs).1 y hy
        by_contra hcon
        have := sw.negTrans val y a[0] (by simpa using hcon) hle
        rw [hc] at this
        exact Bool.noConfusion this
    have hins : insertBack comp val (a.take i) = val :: a.take i := by
      rw [htake] at hall ⊢
      rw [insertBack_cons, if_pos hall]
    rw [hins]
    simp
  · exact unguardedLinearInsert_eq comp a i val h

/-- The insertion loop over the positions `s, s + 1, ..., s + k - 1`, for
either of the two loop bodies: the prefix grows sorted, nothing is lost, and
elements that compare equal keep their order. -/
theorem foldl_insert {α : Type} (comp : α → α → Bool)
    (step : List α → Nat → List α)
    (hstep : ∀ (a : List α) (i : Nat) (val : α), 0 < i → a[i]? = some val →
      (a.take i).Pairwise (fun x y => comp y x = false) →
      step a i = insertBack comp val (a.take i) ++ a.drop (i + 1))
    (sw : StrictWeak comp) (k : Nat) :
    ∀ (s : Nat) (a : List α), 0 < s → s + k ≤ a.length →
      (a.take s).Pairwise (fun x y => comp y x = false) →
      ((List.range' s k).foldl step a).length = a.length
      ∧ (((List.range' s k).foldl step a).take (s + k)).Pairwise (fun x y => comp y x = false)
      ∧ ((List.range' s k).foldl step a).Perm a
      ∧ ∀ keep : α → Bool, (∀ v y, keep v = true → comp v y = true → keep y = false) →
          ((List.range' s k).foldl step a).filter keep = a.filter keep := by
  induction k with
  | zero =>
    intro s a _ _ hs
    exact ⟨rfl, hs, List.Perm.refl _, fun _ _ => rfl⟩
  | succ k ih =>
    intro s a hpos hlen hs
    obtain ⟨val, hget⟩ : ∃ val, a[s]? = some val :=
      ⟨a[s], List.getElem?_eq_getElem (by omega)⟩
    have hst := hstep a s val hpos hget hs
    have hsplit : a.take s ++ val :: a.drop (s + 1) = a := by
      rw [← drop_of_getElem? a s val hget, List.take_append_drop]
    have hlen1 : (step a s).length = a.length := by
      rw [hst, List.length_append, insertBack_length, List.length_take, List.length_drop]
      omega
    have htake1 : (step a s).take (s + 1) = insertBack comp val (a.take s) := by
      rw [hst, List.take_append_of_le_length (by rw [insertBack_length, List.length_take]; omega)]
      rw [List.take_of_length_le (by rw [insertBack_length, List.length_take]; omega)]
    have hperm1 : (step a s).Perm a := by
      rw [hst]
      refine ((insertBack_perm comp val (a.take s)).append_right _).trans ?_
      rw [List.cons_append]
      refine List.perm_middle.symm.trans ?_
      rw [hsplit]
    have hs1 : ((step a s).take (s + 1)).Pairwise (fun x y => comp y x = false) := by
      rw [htake1]
      exact insertBack_sorted comp sw _ _ hs
    obtain ⟨i1, i2, i3, i4⟩ := ih (s + 1) (step a s) (by omega) (by omega) hs1
    rw [List.range'_succ, List.foldl_cons]
    refine ⟨by rw [i1, hlen1], ?_, i3.trans hperm1, ?_⟩
    · rw [show s + (k + 1) = s + 1 + k by omega]
      exact i2
    · intro keep hkeep
      rw [i4 keep hkeep, hst, List.filter_append, insertBack_filter comp keep hkeep,
        ← List.filter_append]
      congr 1
      rw [List.append_assoc]
      exact hsplit

theorem insertionSort_spec {α : Type} (comp : α → α → Bool) (sw : StrictWeak comp) (a : List α)
    (n : Nat) (hn : n ≤ a.length) :
    (insertionSort comp a 0 n).length = a.length
    ∧ ((insertionSort comp a 0 n).take n).Pairwise (fun x y => comp y x = false)
    ∧ (insertionSort comp a 0 n).Perm a
    ∧ ∀ keep : α → Bool, (∀ v y, keep v = true → comp v y = true → keep y = false) →
        (insertionSort comp a 0 n).filter keep = a.filter keep := by
  unfold insertionSort
  split_ifs with h0
  · subst h0
    exact ⟨rfl, by simp, List.Perm.refl _, fun _ _ => rfl⟩
  · have h1 : (a.take 1).Pairwise (fun x y => comp y x = false) := by
      rcases a with _ | ⟨x, t⟩
      · simp
      · simp
    have := foldl_insert comp (insertionSortStep comp 0)
      (fun a i val hi h hs => insertionSortStep_eq comp sw a i val hi h hs) sw (n - (0 + 1)) 1 a
      (by omega) (by omega) h1
    rw [show 1 + (n - (0 + 1)) = n by omega] at this
    exact this

theorem unguardedInsertionSort_spec {α : Type} (comp : α → α → Bool) (sw : StrictWeak comp)
    (a : List α) (first n : Nat) (hf : 0 < first) (hfn : first ≤ n) (hn : n ≤ a.length)
    (hs : (a.take first).Pairwise (fun x y => comp y x = false)) :
    (unguardedInsertionSort comp a first n).length = a.length
    ∧ ((unguardedInsertionSort comp a first n).take n).Pairwise (fun x y => comp y x = false)
    ∧ (unguardedInsertionSort comp a first n).Perm a
    ∧ ∀ keep : α → Bool, (∀ v y, keep v = true → comp v y = true → keep y = false) →
        (unguardedInsertionSort comp a first n).filter keep = a.filter keep := by
  unfold unguardedInsertionSort
  have := foldl_insert comp (unguardedLinearInsert comp)
    (fun a i val _ h _ => unguardedLinearInsert_eq comp a i val h) sw (n - first) first a
    hf (by omega) hs
  rw [show first + (n - first) = n by omega] at this
  exact this

/-- The final pass sorts the whole array whatever the earlier passes did,
keeps every element, and keeps elements that compare equal in order. -/
theorem finalInsertionSort_spec {α : Type} (comp : α → α → Bool) (sw : StrictWeak comp)
    (a : List α) :
    (finalInsertionSort comp a 0 a.length).Pairwise (fun x y => comp y x = false)
    ∧ (finalInsertionSort comp a 0 a.length).Perm a
    ∧ ∀ keep : α → Bool, (∀ v y, keep v = true → comp v y = true → keep y = false) →
        (finalInsertionSort comp a 0 a.length).filter keep = a.filter keep := by
  unfold finalInsertionSort S_threshold
  split_ifs with h
  · obtain ⟨l1, s1, p1, k1⟩ := insertionSort_spec comp sw a (0 + 16) (by omega)
    obtain ⟨l2, s2, p2, k2⟩ := unguardedInsertionSort_spec comp sw
      (insertionSort comp a 0 (0 + 16)) (0 + 16) a.length (by omega) (by omega) (by omega) s1
    refine ⟨?_, p2.trans p1, fun keep hkeep => by rw [k2 keep hkeep, k1 keep hkeep]⟩
    rw [List.take_of_length_le (by omega)] at s2
    exact s2
  · obtain ⟨l1, s1, p1, k1⟩ := insertionSort_spec comp sw a a.length (le_refl _)
    refine ⟨?_, p1, k1⟩
    rw [List.take_of_length_le (by omega)] at s1
    exact s1

/-- The call `std::sort` with a strict weak ordering returns a permutation of
its input in which no element is smaller than an earlier one. -/
theorem stdSort_sorted_perm {α : Type} [DecidableEq α] (comp : α → α → Bool)
    (sw : StrictWeak comp) (a : List α) :
    (stdSort comp a).Perm a ∧ (stdSort comp a).Pairwise (fun x y => comp y x = false) := by
  unfold stdSort
  split_ifs with h
  · rw [List.length_eq_zero] at h
    subst h
    exact ⟨List.Perm.refl _, List.Pairwise.nil⟩
  · have hp := introsortLoop_perm comp (lg a.length * 2) a 0 a.length
    obtain ⟨s, p, _⟩ := finalInsertionSort_spec comp sw
      (introsortLoop comp (lg a.length * 2) a 0 a.length)
    rw [hp.length_eq] at s p
    exact ⟨p.trans hp, s⟩

theorem introsortLoop_small {α : Type} (comp : α → α → Bool) (depth_limit : Nat) (a : List α)
    (first last : Nat) (h : last - first ≤ 16) :
    introsortLoop comp depth_limit a first last = a := by
  cases depth_limit with
  | zero =>
    unfold introsortLoop S_threshold
    rw [if_neg (by omega)]
  | succ d =>
    unfold introsortLoop S_threshold
    rw [if_neg (by omega)]

/-- Up to sixteen elements `std::sort` is an insertion sort, which keeps
elements that compare equal in their order. -/
theorem stdSort_stable_small {α : Type} (comp : α → α → Bool) (sw : StrictWeak comp)
    (a : List α) (h : a.length ≤ 16) (keep : α → Bool)
    (hkeep : ∀ v y, keep v = true → comp v y = true → keep y = false) :
    (stdSort comp a).filter keep = a.filter keep := by
  unfold stdSort
  split_ifs with h0
  · rfl
  · rw [introsortLoop_small comp _ a 0 a.length (by omega)]
    exact (finalInsertionSort_spec comp sw a).2.2 keep hkeep

/-! ## The sort in `main` (C5, C6) -/

theorem strictWeak_of_key (key : Process → Int) :
    StrictWeak (fun entry1 entry2 : Process => decide (key entry1 < key entry2)) := by
  constructor
  · intro a b h
    simp only [decide_eq_true_eq, decide_eq_false_iff_not] at h ⊢
    omega
  · intro a b c h1 h2
    simp only [decide_eq_true_eq, decide_eq_false_iff_not] at h1 h2 ⊢
    omega

theorem lex_cons_iff (m n : Nat) (ms ns : List Nat) :
    List.Lex (fun m n : Nat => m < n) (m :: ms) (n :: ns)
      ↔ m < n ∨ (m = n ∧ List.Lex (fun m n : Nat => m < n) ms ns) := by
  constructor
  · intro h
    cases h with
    | cons h => exact Or.inr ⟨rfl, h⟩
    | rel h => exact Or.inl h
  · rintro (h | ⟨rfl, h⟩)
    · exact List.Lex.rel h
    · exact List.Lex.cons h

theorem stringLt_iff_lexLt (s t : List Char) : stringLt s t = true ↔ lexLt s t := by
  unfold lexLt
  induction s generalizing t with
  | nil =>
    cases t with
    | nil => simp [stringLt, List.Lex.not_nil_right]
    | cons b bs => simp [stringLt, List.Lex.nil]
  | cons a as ih =>
    cases t with
    | nil => simp [stringLt, List.Lex.not_nil_right]
    | cons b bs =>
      unfold stringLt
      rw [List.map_cons, List.map_cons, lex_cons_iff, ← ih bs]
      by_cases h1 : a.toNat < b.toNat
      · simp [h1]
      · by_cases h2 : b.toNat < a.toNat
        · have hne : a.toNat ≠ b.toNat := by omega
          simp [h1, h2, hne]
        · have he : a.toNat = b.toNat := by omega
          simp [h1, h2, he]

theorem strictWeak_stringLt :
    StrictWeak (fun entry1 entry2 : Process => stringLt entry1.name entry2.name) := by
  constructor
  · intro a b h
    have h1 := (stringLt_iff_lexLt _ _).1 h
    by_contra h2
    have h3 := (stringLt_iff_lexLt _ _).1 (by simpa using h2)
    exact (asymm_of (List.Lex (fun m n : Nat => m < n)) h1) h3
  · intro a b c h1 h2
    by_contra h3
    have h4 := (stringLt_iff_lexLt _ _).1 (by simpa using h3)
    rcases @IsOrderConnected.conn _ (List.Lex (fun m n : Nat => m < n)) _ _
      (b.name.map Char.toNat) _ h4 with h5 | h5
    · rw [(stringLt_iff_lexLt _ _).2 h5] at h1
      exact Bool.noConfusion h1
    · rw [(stringLt_iff_lexLt _ _).2 h5] at h2
      exact Bool.noConfusion h2

theorem sortList_perm (sort : SortMode) (list : ProcList) : (sortList sort list).Perm list := by
  cases sort
  · exact List.Perm.refl _
  · exact (stdSort_sorted_perm _ (strictWeak_of_key fun e => e.shared) list).1
  · exact (stdSort_sorted_perm _ (strictWeak_of_key fun e => e.priv) list).1
  · exact (stdSort_sorted_perm _ (strictWeak_of_key fun e => e.rss) list).1
  · exact (stdSort_sorted_perm _ (strictWeak_of_key fun e => e.swap) list).1
  · exact (stdSort_sorted_perm _ strictWeak_stringLt list).1

theorem sorted_of_key (key : Process → Int) (list : ProcList) :
    (stdSort (fun entry1 entry2 : Process => decide (key entry1 < key entry2)) list).Pairwise
      (fun x y => key x ≤ key y) := by
  refine (stdSort_sorted_perm _ (strictWeak_of_key key) list).2.imp ?_
  intro x y h
  simp only [decide_eq_false_iff_not] at h
  omega

/-- C5: for every list of records and every sort key among shared, private,
rss, swap and name, the list `main` prints after sorting is a permutation of
the input list and is non-decreasing in the selected field: in integer order
for the numeric keys, in byte-wise lexicographic order for the name, so that
no record with a non-empty name stands before one with an empty name; shared
values 50, 5, 500 in any input order come out as 5, 50, 500. -/
theorem sort_is_sorted_permutation (list : ProcList) :
    (∀ sort : SortMode, (sortList sort list).Perm list)
    ∧ (sortList SortMode.Shared list).Pairwise (fun x y => x.shared ≤ y.shared)
    ∧ (sortList SortMode.Private list).Pairwise (fun x y => x.priv ≤ y.priv)
    ∧ (sortList SortMode.Rss list).Pairwise (fun x y => x.rss ≤ y.rss)
    ∧ (sortList SortMode.Swap list).Pairwise (fun x y => x.swap ≤ y.swap)
    ∧ (sortList SortMode.Name list).Pairwise
        (fun x y => x.name = y.name ∨ lexLt x.name y.name)
    ∧ (∀ (pre post : ProcList) (x : Process), sortList SortMode.Name list = pre ++ x :: post →
        x.name = [] → ∀ y ∈ pre, y.name = [])
    ∧ ((list.map (fun e => e.shared)).Perm [50, 5, 500] →
        (sortList SortMode.Shared list).map (fun e => e.shared) = [5, 50, 500]) := by
  have hname : (sortList SortMode.Name list).Pairwise
      (fun x y => x.name = y.name ∨ lexLt x.name y.name) := by
    refine (stdSort_sorted_perm _ strictWeak_stringLt list).2.imp ?_
    intro x y h
    have hn : ¬ lexLt y.name x.name := fun h2 => by
      rw [(stringLt_iff_lexLt _ _).2 h2] at h
      exact Bool.noConfusion h
    rcases trichotomous_of (List.Lex (fun m n : Nat => m < n)) (x.name.map Char.toNat)
      (y.name.map Char.toNat) with h1 | h1 | h1
    · exact Or.inr h1
    · left
      refine List.map_injective_iff.2 ?_ h1
      intro c d hcd
      exact Char.ext (UInt32.ext (by simpa [Char.toNat] using hcd))
    · exact absurd h1 hn
  refine ⟨fun sort => sortList_perm sort list, sorted_of_key _ list, sorted_of_key _ list,
    sorted_of_key _ list, sorted_of_key _ list, hname, ?_, ?_⟩
  · intro pre post x hsplit hx y hy
    rw [hsplit] at hname
    have h := (List.pairwise_append.1 hname).2.2 y hy x (List.mem_cons_self _ _)
    rcases h with h | h
    · rw [h, hx]
    · rw [hx] at h
      exact absurd h (List.Lex.not_nil_right _ _)
  · intro hperm
    have h1 : ((sortList SortMode.Shared list).map (fun e => e.shared)).Perm [5, 50, 500] :=
      ((sortList_perm SortMode.Shared list).map _).trans (hperm.trans (by decide))
    have h2 : ((sortList SortMode.Shared list).map (fun e => e.shared)).Sorted (· ≤ ·) :=
      List.pairwise_map.2 (sorted_of_key (fun e => e.shared) list)
    exact List.eq_of_perm_of_sorted h1 h2 (by decide)

/-- Witness for C5: three records with shared values 50, 5 and 500. -/
theorem sort_is_sorted_permutation_witness :
    (sortList SortMode.Shared [⟨"a".toList, 1, 50, 9, 0, 0, 0⟩, ⟨"b".toList, 2, 5, 8, 0, 0, 0⟩,
      ⟨"c".toList, 3, 500, 7, 0, 0, 0⟩]).map (fun e => e.shared) = [5, 50, 500] :=
  (sort_is_sorted_permutation [⟨"a".toList, 1, 50, 9, 0, 0, 0⟩, ⟨"b".toList, 2, 5, 8, 0, 0, 0⟩,
      ⟨"c".toList, 3, 500, 7, 0, 0, 0⟩]).2.2.2.2.2.2.2 (by decide)

theorem stable_of_key (key : Process → Int) (list : ProcList) (h : list.length ≤ 16) (k : Int) :
    (stdSort (fun entry1 entry2 : Process => decide (key entry1 < key entry2)) list).filter
        (fun e => decide (key e = k))
      = list.filter (fun e => decide (key e = k)) := by
  refine stdSort_stable_small _ (strictWeak_of_key key) list h _ ?_
  intro v y h1 h2
  simp only [decide_eq_true_eq, decide_eq_false_iff_not] at h1 h2 ⊢
  omega

/-- C6 (amended): for every list of at most 16 records and every sort key
among shared, private, rss, swap and name, the sort in `main` is stable: the
records with any one value of the selected field appear in the output in the
same order as in the input. -/
theorem sort_stable_up_to_16 (list : ProcList) (h : list.length ≤ 16) :
    (∀ k : Int, (sortList SortMode.Shared list).filter (fun e => decide (e.shared = k))
        = list.filter (fun e => decide (e.shared = k)))
    ∧ (∀ k : Int, (sortList SortMode.Private list).filter (fun e => decide (e.priv = k))
        = list.filter (fun e => decide (e.priv = k)))
    ∧ (∀ k : Int, (sortList SortMode.Rss list).filter (fun e => decide (e.rss = k))
        = list.filter (fun e => decide (e.rss = k)))
    ∧ (∀ k : Int, (sortList SortMode.Swap list).filter (fun e => decide (e.swap = k))
        = list.filter (fun e => decide (e.swap = k)))
    ∧ (∀ k : List Char, (sortList SortMode.Name list).filter (fun e => decide (e.name = k))
        = list.filter (fun e => decide (e.name = k))) := by
  refine ⟨stable_of_key _ list h, stable_of_key _ list h, stable_of_key _ list h,
    stable_of_key _ list h, ?_⟩
  intro k
  refine stdSort_stable_small _ strictWeak_stringLt list h _ ?_
  intro v y h1 h2
  simp only [decide_eq_true_eq, decide_eq_false_iff_not] at h1 ⊢
  intro h3
  rw [h1, h3] at h2
  have := strictWeak_stringLt.asymm ⟨k, 0, 0, 0, 0, 0, 0⟩ ⟨k, 0, 0, 0, 0, 0, 0⟩ h2
  rw [h2] at this
  exact Bool.noConfusion this

/-- Witness for C6: two records with the same shared value between two
others. -/
theorem sort_stable_up_to_16_witness :
    (sortList SortMode.Shared [⟨"a".toList, 1, 7, 9, 0, 0, 0⟩, ⟨"b".toList, 2, 5, 8, 0, 0, 0⟩,
        ⟨"c".toList, 3, 7, 7, 0, 0, 0⟩]).filter (fun e => decide (e.shared = 7))
      = [⟨"a".toList, 1, 7, 9, 0, 0, 0⟩, ⟨"c".toList, 3, 7, 7, 0, 0, 0⟩] :=
  (sort_stable_up_to_16 [⟨"a".toList, 1, 7, 9, 0, 0, 0⟩, ⟨"b".toList, 2, 5, 8, 0, 0, 0⟩,
        ⟨"c".toList, 3, 7, 7, 0, 0, 0⟩] (by decide)).1 7

set_option maxRecDepth 100000 in
/-- C6 as stated fails: of seventeen records with the same shared value the
sort by shared puts the ninth one first, so the records `p00` and `p08`, equal
in the selected field, change their relative order. The range is longer than
16, so the introsort loop partitions it once: the median of positions 1, 8
and 16 is position 8 and goes to the front, then the partition exchanges
positions 1 and 16, 2 and 15, and so on up to 8 and 9, because no element is
smaller than the pivot; the final insertion sort moves nothing. -/
theorem sort_not_stable :
    (sortList SortMode.Shared seventeen).map (fun e => e.name)
      = ["p08".toList, "p16".toList, "p15".toList, "p14".toList, "p13".toList, "p12".toList,
         "p11".toList, "p10".toList, "p09".toList, "p00".toList, "p07".toList, "p06".toList,
         "p05".toList, "p04".toList, "p03".toList, "p02".toList, "p01".toList]
    ∧ (sortList SortMode.Shared seventeen).filter (fun e => decide (e.shared = 0))
        ≠ seventeen.filter (fun e => decide (e.shared = 0)) := by
  decide

/-! ## The digit count (C19) -/

theorem lenOfNumFuel_nonpos (fuel : Nat) (value : Int) (h : value ≤ 0) :
    lenOfNumFuel fuel value = 1 := by
  cases fuel with
  | zero => rfl
  | succ f =>
    rw [lenOfNumFuel_step, if_neg]
    have := tdiv_ten_nonpos value h
    omega

theorem lenOfNumFuel_any (fuel : Nat) (value : Int) (h : value.natAbs ≤ fuel) :
    lenOfNumFuel fuel value = lenOfNum value := by
  by_cases h0 : 0 ≤ value
  · obtain ⟨n, rfl⟩ := Int.eq_ofNat_of_zero_le h0
    unfold lenOfNum
    simp only [Int.natAbs_ofNat] at h ⊢
    exact lenOfNumFuel_enough fuel n h
  · unfold lenOfNum
    rw [lenOfNumFuel_nonpos _ _ (by omega), lenOfNumFuel_nonpos _ _ (by omega)]

theorem lenOfNum_bounds_nat (n : Nat) (hn : 0 < n) :
    10 ^ ((lenOfNum (n : Int)).toNat - 1) ≤ n ∧ n < 10 ^ (lenOfNum (n : Int)).toNat := by
  induction n using Nat.strong_induction_on with
  | _ n ih =>
    rw [lenOfNum_eq, tdiv_ten_ofNat]
    by_cases h : ((n / 10 : Nat) : Int) > 0
    · rw [if_pos h]
      have hq : 0 < n / 10 := by omega
      obtain ⟨l, u⟩ := ih (n / 10) (by omega) hq
      have hp := lenOfNum_pos ((n / 10 : Nat) : Int)
      obtain ⟨k, hk⟩ : ∃ k : Nat, lenOfNum ((n / 10 : Nat) : Int) = ((k + 1 : Nat) : Int) :=
        ⟨(lenOfNum ((n / 10 : Nat) : Int)).toNat - 1, by omega⟩
      rw [hk] at l u ⊢
      have e1 : (1 + ((k + 1 : Nat) : Int)).toNat = k + 2 := by omega
      have e2 : (((k + 1 : Nat) : Int)).toNat = k + 1 := by omega
      rw [e1]
      rw [e2] at l u
      simp only [Nat.add_sub_cancel] at l
      have e3 : k + 2 - 1 = k + 1 := by omega
      rw [e3, pow_succ, pow_succ 10 (k + 1)]
      constructor <;> omega
    · rw [if_neg h]
      have hq : n / 10 = 0 := by omega
      have : n < 10 := by omega
      simp
      omega

/-- C19: `lenOfNum` returns for every integer, in at most `|value|` rounds of
its recursion; it satisfies the recursion of the source; for every `n ≥ 0` it
is the number of decimal digits of `n`: `lenOfNum(0) = 1`, and for `n > 0` the
result `k` has `10^(k-1) ≤ n < 10^k`; and it is monotone on the non-negative
integers. -/
theorem lenOfNum_digit_count :
    (∀ (value : Int) (fuel : Nat), value.natAbs ≤ fuel →
        lenOfNumFuel fuel value = lenOfNum value)
    ∧ (∀ value : Int,
        lenOfNum value = if value.tdiv 10 > 0 then 1 + lenOfNum (value.tdiv 10) else 1)
    ∧ lenOfNum 0 = 1
    ∧ (∀ n : Int, 0 ≤ n → lenOfNum n = (decimalDigits n.toNat : Int))
    ∧ (∀ n : Int, 0 < n →
        1 ≤ lenOfNum n ∧ (10 : Int) ^ ((lenOfNum n).toNat - 1) ≤ n
          ∧ n < (10 : Int) ^ (lenOfNum n).toNat)
    ∧ (∀ v w : Int, 0 ≤ v → v ≤ w → lenOfNum v ≤ lenOfNum w) := by
  refine ⟨fun value fuel h => lenOfNumFuel_any fuel value h, lenOfNum_eq, rfl,
    lenOfNum_eq_decimalDigits, ?_, lenOfNum_mono⟩
  intro n hn
  obtain ⟨m, rfl⟩ := Int.eq_ofNat_of_zero_le (le_of_lt hn)
  obtain ⟨l, u⟩ := lenOfNum_bounds_nat m (by omega)
  refine ⟨lenOfNum_pos _, ?_, ?_⟩
  · exact_mod_cast l
  · exact_mod_cast u

/-- Witness for C19: 45000 has five digits. -/
theorem lenOfNum_digit_count_witness :
    1 ≤ lenOfNum 45000 ∧ (10 : Int) ^ ((lenOfNum 45000).toNat - 1) ≤ 45000
      ∧ (45000 : Int) < (10 : Int) ^ (lenOfNum 45000).toNat :=
  lenOfNum_digit_count.2.2.2.2.1 45000 (by decide)

/-! ## Lines without a label, and the order of the tests (C13, C20) -/

/-- C13: a line that begins with none of the six labels, the empty line and
lines shorter than a label included, leaves the record and with it all six
totals as they were. -/
theorem unrecognised_line_ignored (st : ParseState) (line : List Char)
    (h : ∀ label ∈ labels, beginsWith label line = false) :
    processLine st line = st := by
  have n : ∀ label ∈ labels, ¬ line.take label.length = label := by
    intro label hl e
    have hb := h label hl
    rw [(take_eq_iff_beginsWith label line).1 e] at hb
    exact Bool.noConfusion hb
  have n1 := n "Shared".toList (by simp [labels])
  have n2 := n "Private".toList (by simp [labels])
  have n3 := n "Rss".toList (by simp [labels])
  have n4 := n "Pss".toList (by simp [labels])
  have n5 := n "Swap:".toList (by simp [labels])
  have n6 := n "SwapPss:".toList (by simp [labels])
  simp only [show "Shared".toList.length = 6 from rfl, show "Private".toList.length = 7 from rfl,
    show "Rss".toList.length = 3 from rfl, show "Pss".toList.length = 3 from rfl,
    show "Swap:".toList.length = 5 from rfl, show "SwapPss:".toList.length = 8 from rfl]
    at n1 n2 n3 n4 n5 n6
  unfold processLine
  simp only [n1, n2, n3, n4, n5, n6, if_false]

/-- Witness for C13: the empty line, a line shorter than its label and an
ordinary header line of a memory map. -/
theorem unrecognised_line_ignored_witness :
    processLine ⟨Process.init [], Locals.init⟩ [] = ⟨Process.init [], Locals.init⟩
    ∧ processLine ⟨Process.init [], Locals.init⟩ "Rs".toList = ⟨Process.init [], Locals.init⟩
    ∧ processLine ⟨Process.init [], Locals.init⟩ "Size: 4 kB".toList
        = ⟨Process.init [], Locals.init⟩ :=
  ⟨unrecognised_line_ignored _ _ (by decide), unrecognised_line_ignored _ _ (by decide),
    unrecognised_line_ignored _ _ (by decide)⟩

theorem labels_exclusive (l1 l2 line : List Char) (h12 : l1.isPrefixOf l2 = false)
    (h21 : l2.isPrefixOf l1 = false) (h1 : line.take l1.length = l1)
    (h2 : line.take l2.length = l2) : False := by
  have b1 := (take_eq_iff_beginsWith l1 line).1 h1
  have b2 := (take_eq_iff_beginsWith l2 line).1 h2
  rcases Nat.le_total l1.length l2.length with h | h
  · exact beginsWith_exclusive l1 l2 line h h12 b1 b2
  · exact beginsWith_exclusive l2 l1 line h h21 b2 b1

theorem field_tests_exclusive (line : List Char) (f g : Field)
    (hf : line.take f.label.length = f.label) (hg : line.take g.label.length = g.label) :
    f = g := by
  cases f <;> cases g <;>
    first
    | rfl
    | exact absurd (labels_exclusive _ _ line (by decide) (by decide) hf hg) id

theorem processLine_eq_sourceOrder (st : ParseState) (line : List Char) :
    processLine st line = processLineIn sourceOrder st line := by
  rfl

theorem processLineIn_of_test (order : List Field) (st : ParseState) (line : List Char)
    (f : Field) (hf : line.take f.label.length = f.label) (hmem : f ∈ order) :
    processLineIn order st line = f.branch st line := by
  induction order with
  | nil => simp at hmem
  | cons g rest ih =>
    unfold processLineIn
    by_cases hg : line.take g.label.length = g.label
    · rw [if_pos hg, field_tests_exclusive line f g hf hg]
    · rw [if_neg hg]
      rcases List.mem_cons.1 hmem with rfl | hm
      · exact absurd hf hg
      · exact ih hm

theorem processLineIn_of_no_test (order : List Field) (st : ParseState) (line : List Char)
    (h : ∀ f : Field, ¬ line.take f.label.length = f.label) :
    processLineIn order st line = st := by
  induction order with
  | nil => rfl
  | cons g rest ih =>
    unfold processLineIn
    rw [if_neg (h g)]
    exact ih

theorem branch_frame (f g : Field) (hne : g ≠ f) (st : ParseState) (line : List Char) :
    g.get (f.branch st line).process = g.get st.process := by
  cases f <;> cases g <;> first | exact absurd rfl hne | rfl

/-- C20: the six prefix tests exclude one another, so that no line passes two
of them and a line beginning `SwapPss:` does not pass the test for `Swap:`;
for every line at most one of the six totals changes; and the chain of tests
gives the same result in whatever order the six branches are tested. -/
theorem prefix_tests_exclusive :
    (∀ (line : List Char) (f g : Field), line.take f.label.length = f.label →
        line.take g.label.length = g.label → f = g)
    ∧ (∀ line : List Char, beginsWith "SwapPss:".toList line = true →
        ¬ line.take 5 = "Swap:".toList)
    ∧ (∀ (st : ParseState) (line : List Char), ∃ f : Field, ∀ g : Field, g ≠ f →
        g.get (processLine st line).process = g.get st.process)
    ∧ (∀ (order : List Field) (st : ParseState) (line : List Char), (∀ f : Field, f ∈ order) →
        processLineIn order st line = processLine st line) := by
  refine ⟨field_tests_exclusive, ?_, ?_, ?_⟩
  · intro line h h5
    have h8 : line.take Field.swap_pss.label.length = Field.swap_pss.label :=
      (take_eq_iff_beginsWith _ line).2 h
    have := field_tests_exclusive line Field.swap Field.swap_pss h5 h8
    exact Field.noConfusion this
  · intro st line
    rw [processLine_eq_sourceOrder]
    by_cases h : ∃ f : Field, line.take f.label.length = f.label
    · obtain ⟨f, hf⟩ := h
      refine ⟨f, fun g hne => ?_⟩
      rw [processLineIn_of_test sourceOrder st line f hf (by cases f <;> simp [sourceOrder])]
      exact branch_frame f g hne st line
    · refine ⟨Field.shared, fun g _ => ?_⟩
      rw [processLineIn_of_no_test sourceOrder st line (fun f hf => h ⟨f, hf⟩)]
  · intro order st line hall
    rw [processLine_eq_sourceOrder]
    by_cases h : ∃ f : Field, line.take f.label.length = f.label
    · obtain ⟨f, hf⟩ := h
      rw [processLineIn_of_test order st line f hf (hall f),
        processLineIn_of_test sourceOrder st line f hf (by cases f <;> simp [sourceOrder])]
    · rw [processLineIn_of_no_test order st line (fun f hf => h ⟨f, hf⟩),
        processLineIn_of_no_test sourceOrder st line (fun f hf => h ⟨f, hf⟩)]

/-- Witness for C20: the chain in reverse order on a `SwapPss:` line. -/
theorem prefix_tests_exclusive_witness :
    processLineIn [Field.swap_pss, Field.swap, Field.pss, Field.rss, Field.priv, Field.shared]
        ⟨Process.init [], Locals.init⟩ "SwapPss: 3 kB".toList
      = processLine ⟨Process.init [], Locals.init⟩ "SwapPss: 3 kB".toList :=
  prefix_tests_exclusive.2.2.2 _ _ _ (by intro f; cases f <;> simp)

/-! ## The choice between the two memory-map files (C12) -/

/-- C12: for every text and every state of `comm`, a directory without
`smaps_rollup` whose `smaps` holds the text gives the same record as a
directory whose `smaps_rollup` holds the text; and when `smaps_rollup` is a
regular file, `smaps` has no influence on the record. -/
theorem fallback_same_record :
    (∀ (comm smaps : FileEntry) (text : List Char),
        getProcessData ⟨comm, FileEntry.missing, FileEntry.regular (some text)⟩
          = getProcessData ⟨comm, FileEntry.regular (some text), smaps⟩)
    ∧ (∀ (comm smaps1 smaps2 : FileEntry) (content : Option (List Char)),
        getProcessData ⟨comm, FileEntry.regular content, smaps1⟩
          = getProcessData ⟨comm, FileEntry.regular content, smaps2⟩) := by
  exact ⟨fun _ _ _ => rfl, fun _ _ _ _ => rfl⟩

theorem getProcessData_unreadable (pid_dir : PidDir)
    (h1 : pid_dir.smaps_rollup.open = none) (h2 : pid_dir.smaps.open = none) :
    (getProcessData pid_dir).priv = 0 ∧ (getProcessData pid_dir).shared = 0
    ∧ (getProcessData pid_dir).rss = 0 ∧ (getProcessData pid_dir).pss = 0
    ∧ (getProcessData pid_dir).swap = 0 ∧ (getProcessData pid_dir).swap_pss = 0 := by
  obtain ⟨comm, rollup, smaps⟩ := pid_dir
  simp only at h1 h2
  have hsel : (if (!rollup.doesExist || !rollup.is_regular_file) = true then smaps
      else rollup).open = none := by
    split_ifs
    · exact h2
    · exact h1
  unfold getProcessData
  simp only [hsel]
  split_ifs <;> (try split) <;> simp

/-- For a directory in which the status of every path can be read: when
neither `smaps_rollup` nor `smaps` can be opened as a regular file, the record
has six numeric fields 0, and the enumeration loop does not append it; a root
with only such directories gives the empty list. -/
theorem unreadable_directory_dropped :
    (∀ pid_dir : PidDir, pid_dir.smaps_rollup.open = none → pid_dir.smaps.open = none →
        ∃ name : List Char, getProcessData pid_dir = ⟨name, 0, 0, 0, 0, 0, 0⟩)
    ∧ (∀ (list : ProcList) (dentry : DirEntry), dentry.dir.smaps_rollup.open = none →
        dentry.dir.smaps.open = none → visitEntry list dentry = list)
    ∧ (∀ proc : ProcRoot,
        (∀ dentry ∈ proc.entries,
          dentry.dir.smaps_rollup.open = none ∧ dentry.dir.smaps.open = none) →
        createProcessList [] proc = []) := by
  refine ⟨?_, ?_, ?_⟩
  · intro pid_dir h1 h2
    obtain ⟨a, b, c, d, e, f⟩ := getProcessData_unreadable pid_dir h1 h2
    refine ⟨(getProcessData pid_dir).name, ?_⟩
    cases hp : getProcessData pid_dir
    rw [hp] at a b c d e f
    simp only at a b c d e f
    subst a b c d e f
    rfl
  · intro list dentry h1 h2
    have hr := (getProcessData_unreadable dentry.dir h1 h2).2.2.1
    unfold visitEntry
    simp [hr]
  · intro proc h
    rw [createProcessList_eq, List.nil_append, List.filter_eq_nil_iff]
    intro p hp
    unfold parsedRecords at hp
    split_ifs at hp
    · obtain ⟨dentry, hd, rfl⟩ := List.mem_map.1 hp
      have hmem := (List.mem_filter.1 hd).1
      have hr := (getProcessData_unreadable dentry.dir (h dentry hmem).1 (h dentry hmem).2).2.2.1
      simp [hr]
    · simp at hp

/-- An instance: a directory whose `smaps_rollup` cannot be opened and whose
`smaps` is missing. -/
theorem unreadable_directory_dropped_witness :
    visitEntry [] ⟨"12".toList, true, true,
      ⟨FileEntry.regular (some "sh\n".toList), FileEntry.regular none, FileEntry.missing⟩⟩ = [] :=
  unreadable_directory_dropped.2.1 [] _ rfl rfl

/-! ## A path whose status cannot be read (C14) -/

theorem getProcessDataChecked_known (comm smaps_rollup smaps : FileEntry) :
    getProcessDataChecked ⟨PathStatus.known comm, PathStatus.known smaps_rollup,
        PathStatus.known smaps⟩
      = .ok (getProcessData ⟨comm, smaps_rollup, smaps⟩) := by
  cases smaps_rollup <;> rfl

/-- C14, the code at the failing input: when the status of `smaps_rollup`
cannot be read, the construction of its directory entry throws and
`getProcessData` returns no record; the same happens for `comm`, and for
`smaps` when `smaps_rollup` is missing. A file whose status can be read but
which cannot be opened does give the record with all totals 0. -/
theorem unreadable_status_throws :
    (∀ (comm : FileEntry) (smaps : PathStatus),
        getProcessDataChecked ⟨PathStatus.known comm, PathStatus.error, smaps⟩
          = .error Exception.filesystem_error)
    ∧ (∀ smaps_rollup smaps : PathStatus,
        getProcessDataChecked ⟨PathStatus.error, smaps_rollup, smaps⟩
          = .error Exception.filesystem_error)
    ∧ (∀ comm : FileEntry,
        getProcessDataChecked ⟨PathStatus.known comm, PathStatus.known FileEntry.missing,
            PathStatus.error⟩
          = .error Exception.filesystem_error)
    ∧ getProcessDataChecked ⟨PathStatus.known (FileEntry.regular (some "sh\n".toList)),
          PathStatus.error, PathStatus.error⟩
        = .error Exception.filesystem_error
    ∧ getProcessDataChecked ⟨PathStatus.known (FileEntry.regular (some "sh\n".toList)),
          PathStatus.known (FileEntry.regular none), PathStatus.known (FileEntry.regular none)⟩
        = .ok ⟨"sh".toList, 0, 0, 0, 0, 0, 0⟩ := by
  exact ⟨fun _ _ => rfl, fun _ _ => rfl, fun _ => rfl, rfl, rfl⟩

/-! ## Which entries are parsed (C16) -/

theorem isdigit_iff_decimalDigit (c : Char) : isdigit c = true ↔ decimalDigit c := by
  unfold isdigit decimalDigit
  constructor
  · intro h
    simp only [Bool.and_eq_true, decide_eq_true_eq] at h
    obtain ⟨h1, h2⟩ := h
    have hc : c = Char.ofNat c.toNat := by simp
    rw [hc]
    generalize c.toNat = n at h1 h2
    interval_cases n <;> decide
  · intro h
    simp only [String.toList, List.mem_cons, List.mem_singleton, List.not_mem_nil,
      or_false] at h
    rcases h with h | h | h | h | h | h | h | h | h | h <;> subst h <;> decide

/-- C16: the enumeration loop parses an entry exactly when it exists, is a
directory and has a name that consists of decimal digits only; every other
entry leaves the list as it is. -/
theorem numeric_directories_parsed :
    (∀ dentry : DirEntry, isProcessDir dentry = true ↔
        (dentry.doesExist = true ∧ dentry.is_directory = true
          ∧ ∀ c ∈ dentry.filename, decimalDigit c))
    ∧ (∀ (list : ProcList) (dentry : DirEntry), isProcessDir dentry = true →
        visitEntry list dentry =
          if (getProcessData dentry.dir).rss ≠ 0 then list ++ [getProcessData dentry.dir]
          else list)
    ∧ (∀ (list : ProcList) (dentry : DirEntry) (c : Char), c ∈ dentry.filename →
        ¬ decimalDigit c → visitEntry list dentry = list)
    ∧ (∀ (list : ProcList) (dentry : DirEntry), dentry.is_directory = false →
        visitEntry list dentry = list)
    ∧ (∀ proc : ProcRoot, createProcessList [] proc
        = ((if proc.doesExist && proc.is_directory then proc.entries.filter isProcessDir
            else []).map (fun dentry => getProcessData dentry.dir)).filter
              (fun p => decide (p.rss ≠ 0))) := by
  have hiff : ∀ dentry : DirEntry, isProcessDir dentry = true ↔
      (dentry.doesExist = true ∧ dentry.is_directory = true
        ∧ ∀ c ∈ dentry.filename, decimalDigit c) := by
    intro dentry
    unfold isProcessDir isNumber
    simp only [Bool.and_eq_true, List.all_eq_true, isdigit_iff_decimalDigit, and_assoc]
  refine ⟨hiff, ?_, ?_, ?_, ?_⟩
  · intro list dentry h
    have h2 : (dentry.doesExist && dentry.is_directory && isNumber dentry.filename) = true := h
    unfold visitEntry
    rw [if_pos h2]
  · intro list dentry c hc hnd
    have h2 : ¬ (dentry.doesExist && dentry.is_directory && isNumber dentry.filename) = true :=
      fun h => hnd (((hiff dentry).1 h).2.2 c hc)
    unfold visitEntry
    rw [if_neg h2]
  · intro list dentry hdir
    have h2 : ¬ (dentry.doesExist && dentry.is_directory && isNumber dentry.filename) = true := by
      simp [hdir]
    unfold visitEntry
    rw [if_neg h2]
  · intro proc
    rw [createProcessList_eq, List.nil_append]
    unfold parsedRecords
    split_ifs <;> rfl

/-- Witness for C16: the entry `self` is skipped, the entry `12` is parsed. -/
theorem numeric_directories_parsed_witness :
    visitEntry [] ⟨"self".toList, true, true,
        ⟨FileEntry.regular (some "sh\n".toList), FileEntry.regular (some "Rss: 7 kB\n".toList),
          FileEntry.missing⟩⟩ = []
    ∧ isProcessDir ⟨"12".toList, true, true,
        ⟨FileEntry.missing, FileEntry.missing, FileEntry.missing⟩⟩ = true :=
  ⟨numeric_directories_parsed.2.2.1 [] _ 's' (by decide) (by decide),
    (numeric_directories_parsed.1 _).2 (by decide)⟩

/-! ## The table (C11, C15, C17, C18) -/

theorem lenOfNum_le_19 (v : Int) (h : v ≤ INT64_MAX) : lenOfNum v ≤ 19 := by
  by_cases h0 : 0 < v
  · obtain ⟨n, rfl⟩ := Int.eq_ofNat_of_zero_le (le_of_lt h0)
    obtain ⟨l, _⟩ := lenOfNum_bounds_nat n (by omega)
    by_contra hc
    have hk : 19 ≤ (lenOfNum (n : Int)).toNat - 1 := by omega
    have hp : 10 ^ 19 ≤ 10 ^ ((lenOfNum (n : Int)).toNat - 1) :=
      Nat.pow_le_pow_right (by decide) hk
    unfold INT64_MAX at h
    have : (10 : Nat) ^ 19 = 10000000000000000000 := by norm_num
    omega
  · unfold lenOfNum
    rw [lenOfNumFuel_nonpos _ _ (by omega)]
    decide

theorem foldl_width_le (vals : List Int) (w0 b : Int) (h0 : w0 ≤ b)
    (h : ∀ v ∈ vals, lenOfNum v + 5 ≤ b) :
    vals.foldl (fun w v => max (lenOfNum v + 5) w) w0 ≤ b := by
  induction vals generalizing w0 with
  | nil => exact h0
  | cons a as ih =>
    rw [List.foldl_cons]
    exact ih _ (max_le (h a (List.mem_cons_self _ _)) h0)
      (fun v hv => h v (List.mem_cons_of_mem _ hv))

theorem foldl_width_ge_six (vals : List Int) (hne : vals ≠ []) :
    6 ≤ vals.foldl (fun w v => max (lenOfNum v + 5) w) 0 := by
  rcases vals with _ | ⟨a, as⟩
  · exact absurd rfl hne
  · have := (foldl_width_lower (a :: as) 0).2 a (List.mem_cons_self _ _)
    have hp := lenOfNum_pos a
    omega

/-- The widths of a non-empty list of 64-bit values lie between 6 and 24. -/
theorem procLens_range (list : ProcList) (hne : list ≠ [])
    (hfit : ∀ e ∈ list, e.shared ≤ INT64_MAX ∧ e.priv ≤ INT64_MAX ∧ e.rss ≤ INT64_MAX
      ∧ e.swap ≤ INT64_MAX) :
    (6 ≤ (procLens list).shared ∧ (procLens list).shared ≤ 24)
    ∧ (6 ≤ (procLens list).priv ∧ (procLens list).priv ≤ 24)
    ∧ (6 ≤ (procLens list).rss ∧ (procLens list).rss ≤ 24)
    ∧ (6 ≤ (procLens list).swap ∧ (procLens list).swap ≤ 24) := by
  obtain ⟨f1, f2, f3, f4⟩ := procLens_fold list ⟨[], 0, 0, 0, 0, 0, 0⟩
  unfold procLens
  rw [f1, f2, f3, f4]
  have hm : ∀ f : Process → Int, list.map f ≠ [] := fun f => by simpa using hne
  refine ⟨⟨foldl_width_ge_six _ (hm _), ?_⟩, ⟨foldl_width_ge_six _ (hm _), ?_⟩,
    ⟨foldl_width_ge_six _ (hm _), ?_⟩, ⟨foldl_width_ge_six _ (hm _), ?_⟩⟩
  · refine foldl_width_le _ _ _ (by decide) (fun v hv => ?_)
    obtain ⟨e, he, rfl⟩ := List.mem_map.1 hv
    have := lenOfNum_le_19 _ (hfit e he).1
    omega
  · refine foldl_width_le _ _ _ (by decide) (fun v hv => ?_)
    obtain ⟨e, he, rfl⟩ := List.mem_map.1 hv
    have := lenOfNum_le_19 _ (hfit e he).2.1
    omega
  · refine foldl_width_le _ _ _ (by decide) (fun v hv => ?_)
    obtain ⟨e, he, rfl⟩ := List.mem_map.1 hv
    have := lenOfNum_le_19 _ (hfit e he).2.2.1
    omega
  · refine foldl_width_le _ _ _ (by decide) (fun v hv => ?_)
    obtain ⟨e, he, rfl⟩ := List.mem_map.1 hv
    have := lenOfNum_le_19 _ (hfit e he).2.2.2
    omega

theorem headerPad_eq (width : Int) (size : Nat) (h0 : (size : Int) ≤ width + 4)
    (h1 : width ≤ 24) : ((headerPad width size : Nat) : Int) = width - size + 4 := by
  unfold headerPad
  rw [Int.toNat_of_nonneg (Int.emod_nonneg _ (by decide))]
  exact Int.emod_eq_of_lt (by omega) (by omega)

theorem putCell_ok (out : List Char) (pad : Nat) (label : List Char) (h : pad ≤ 28) :
    putCell out pad label = .ok (out ++ List.replicate pad ' ' ++ label) := by
  unfold putCell spaceGen stringMaxSize
  rw [if_neg (by omega)]

/-- The header of a table whose widths lie between 6 and 24: four cells of
blanks and label, the name label, and the rule. -/
theorem printHeader_ok (config : Config) (proc_lens : Process)
    (h1 : 6 ≤ proc_lens.shared ∧ proc_lens.shared ≤ 24)
    (h2 : 6 ≤ proc_lens.priv ∧ proc_lens.priv ≤ 24)
    (h3 : 6 ≤ proc_lens.rss ∧ proc_lens.rss ≤ 24)
    (h4 : 6 ≤ proc_lens.swap ∧ proc_lens.swap ≤ 24) :
    printHeader config proc_lens = .ok
      (List.replicate (headerPad proc_lens.shared Shared.length) ' ' ++ Shared
        ++ List.replicate (headerPad proc_lens.priv Private.length) ' ' ++ Private
        ++ List.replicate (headerPad proc_lens.rss Rss.length) ' ' ++ Rss
        ++ (if config.swap then List.replicate (headerPad proc_lens.swap Swap.length) ' ' ++ Swap
            else [])
        ++ "  ".toList ++ Name ++ "\n".toList ++ separator ++ "\n".toList) := by
  have p1 := headerPad_eq proc_lens.shared Shared.length
    (by rw [show Shared.length = 6 from rfl]; omega) h1.2
  have p2 := headerPad_eq proc_lens.priv Private.length
    (by rw [show Private.length = 7 from rfl]; omega) h2.2
  have p3 := headerPad_eq proc_lens.rss Rss.length
    (by rw [show Rss.length = 3 from rfl]; omega) h3.2
  have p4 := headerPad_eq proc_lens.swap Swap.length
    (by rw [show Swap.length = 4 from rfl]; omega) h4.2
  rw [show Shared.length = 6 from rfl] at p1
  rw [show Private.length = 7 from rfl] at p2
  rw [show Rss.length = 3 from rfl] at p3
  rw [show Swap.length = 4 from rfl] at p4
  unfold printHeader
  simp only [bind, Except.bind]
  rw [putCell_ok _ _ _ (by rw [show Shared.length = 6 from rfl]; omega)]
  simp only []
  rw [putCell_ok _ _ _ (by rw [show Private.length = 7 from rfl]; omega)]
  simp only []
  rw [putCell_ok _ _ _ (by rw [show Rss.length = 3 from rfl]; omega)]
  simp only []
  cases hs : config.swap
  · simp [pure, Except.pure]
  · simp only [if_true]
    rw [putCell_ok _ _ _ (by rw [show Swap.length = 4 from rfl]; omega)]
    simp [pure, Except.pure]

theorem showInt_nonneg (v : Int) (h : 0 ≤ v) :
    showInt v = Nat.toDigits 10 v.toNat ∧ ((showInt v).length : Int) = lenOfNum v := by
  obtain ⟨n, rfl⟩ := Int.eq_ofNat_of_zero_le h
  have e : showInt (n : Int) = Nat.toDigits 10 n := by
    unfold showInt
    rw [if_neg (by omega)]
    rfl
  refine ⟨by rw [e]; rfl, ?_⟩
  rw [e, lenOfNum_eq_decimalDigits _ h]
  rfl

theorem setw_length (w : Int) (text : List Char) (h : (text.length : Int) ≤ w) :
    ((setw w text).length : Int) = w := by
  unfold setw
  rw [List.length_append, List.length_replicate]
  omega

theorem procLens_ge (list : ProcList) (e : Process) (he : e ∈ list) :
    lenOfNum e.shared + 5 ≤ (procLens list).shared
    ∧ lenOfNum e.priv + 5 ≤ (procLens list).priv
    ∧ lenOfNum e.rss + 5 ≤ (procLens list).rss
    ∧ lenOfNum e.swap + 5 ≤ (procLens list).swap := by
  obtain ⟨f1, f2, f3, f4⟩ := procLens_fold list ⟨[], 0, 0, 0, 0, 0, 0⟩
  unfold procLens
  rw [f1, f2, f3, f4]
  exact ⟨(foldl_width_lower _ 0).2 _ (List.mem_map_of_mem _ he),
    (foldl_width_lower _ 0).2 _ (List.mem_map_of_mem _ he),
    (foldl_width_lower _ 0).2 _ (List.mem_map_of_mem _ he),
    (foldl_width_lower _ 0).2 _ (List.mem_map_of_mem _ he)⟩

theorem rightAligned_setw (w v : Int) (h0 : 0 ≤ v) (hw : lenOfNum v + 5 ≤ w) :
    RightAligned w v (setw w (showInt v)) := by
  obtain ⟨e1, e2⟩ := showInt_nonneg v h0
  have e3 : ((Nat.toDigits 10 v.toNat).length : Int) = lenOfNum v := by rw [← e1]; exact e2
  refine ⟨?_, setw_length w _ (by omega), ?_⟩
  · unfold setw decimalDigits
    rw [e1]
  · unfold decimalDigits
    omega

/-- C11: for a list of records with non-negative values, in every printed row
each numeric cell is the decimal numeral of its value with blanks in front,
exactly as wide as its column, never wider since the width is at least the
digit count plus 5, and is followed by ` KiB`. -/
theorem cells_fill_width (list : ProcList)
    (hnn : ∀ e ∈ list, 0 ≤ e.shared ∧ 0 ≤ e.priv ∧ 0 ≤ e.rss ∧ 0 ≤ e.swap)
    (config : Config) (e : Process) (he : e ∈ sortList config.sort list) :
    RightAligned (procLens list).shared e.shared (setw (procLens list).shared (showInt e.shared))
    ∧ RightAligned (procLens list).priv e.priv (setw (procLens list).priv (showInt e.priv))
    ∧ RightAligned (procLens list).rss e.rss (setw (procLens list).rss (showInt e.rss))
    ∧ RightAligned (procLens list).swap e.swap (setw (procLens list).swap (showInt e.swap))
    ∧ printRow config (procLens list) e
        = setw (procLens list).shared (showInt e.shared) ++ " KiB".toList
          ++ setw (procLens list).priv (showInt e.priv) ++ " KiB".toList
          ++ setw (procLens list).rss (showInt e.rss) ++ " KiB".toList
          ++ (if config.swap then setw (procLens list).swap (showInt e.swap) ++ " KiB".toList
              else [])
          ++ "  ".toList ++ e.name ++ "\n".toList := by
  have hmem : e ∈ list := (sortList_perm config.sort list).mem_iff.1 he
  obtain ⟨n1, n2, n3, n4⟩ := hnn e hmem
  obtain ⟨g1, g2, g3, g4⟩ := procLens_ge list e hmem
  exact ⟨rightAligned_setw _ _ n1 g1, rightAligned_setw _ _ n2 g2, rightAligned_setw _ _ n3 g3,
    rightAligned_setw _ _ n4 g4, rfl⟩

/-- Witness for C11: with the shared values 3, 45000 and 7 the width is 10 and
the cell of the value 3 has nine blanks in front. -/
theorem cells_fill_width_witness :
    RightAligned 10 3 "         3".toList :=
  (cells_fill_width [⟨"a".toList, 1, 3, 9, 0, 0, 0⟩, ⟨"b".toList, 20, 45000, 800, 0, 12, 0⟩,
      ⟨"c".toList, 300, 7, 70, 0, 5, 0⟩] (by decide) ⟨false, false, SortMode.None⟩
      ⟨"a".toList, 1, 3, 9, 0, 0, 0⟩ (by decide)).1

/-- C18: for a non-empty list of records with non-negative 64-bit values the
padding counts of the header do not wrap around: each is the column width
minus the label length plus 4, which is at least 4 for Shared, 3 for Private,
7 for Rss and 6 for Swap, `spaceGen` returns that many blanks, and every
header cell is as long as the data cells below it with their ` KiB`. -/
theorem header_aligned (list : ProcList) (hne : list ≠ [])
    (hnn : ∀ e ∈ list, 0 ≤ e.shared ∧ 0 ≤ e.priv ∧ 0 ≤ e.rss ∧ 0 ≤ e.swap)
    (hfit : ∀ e ∈ list, e.shared ≤ INT64_MAX ∧ e.priv ≤ INT64_MAX ∧ e.rss ≤ INT64_MAX
      ∧ e.swap ≤ INT64_MAX) :
    (((headerPad (procLens list).shared Shared.length : Nat) : Int)
        = (procLens list).shared - (Shared.length : Int) + 4
      ∧ 4 ≤ headerPad (procLens list).shared Shared.length)
    ∧ (((headerPad (procLens list).priv Private.length : Nat) : Int)
        = (procLens list).priv - (Private.length : Int) + 4
      ∧ 3 ≤ headerPad (procLens list).priv Private.length)
    ∧ (((headerPad (procLens list).rss Rss.length : Nat) : Int)
        = (procLens list).rss - (Rss.length : Int) + 4
      ∧ 7 ≤ headerPad (procLens list).rss Rss.length)
    ∧ (((headerPad (procLens list).swap Swap.length : Nat) : Int)
        = (procLens list).swap - (Swap.length : Int) + 4
      ∧ 6 ≤ headerPad (procLens list).swap Swap.length)
    ∧ (spaceGen (headerPad (procLens list).shared Shared.length)
        = .ok (List.replicate (headerPad (procLens list).shared Shared.length) ' ')
      ∧ spaceGen (headerPad (procLens list).priv Private.length)
        = .ok (List.replicate (headerPad (procLens list).priv Private.length) ' ')
      ∧ spaceGen (headerPad (procLens list).rss Rss.length)
        = .ok (List.replicate (headerPad (procLens list).rss Rss.length) ' ')
      ∧ spaceGen (headerPad (procLens list).swap Swap.length)
        = .ok (List.replicate (headerPad (procLens list).swap Swap.length) ' '))
    ∧ (∀ e ∈ list,
        (List.replicate (headerPad (procLens list).shared Shared.length) ' ' ++ Shared).length
          = (setw (procLens list).shared (showInt e.shared) ++ " KiB".toList).length
        ∧ (List.replicate (headerPad (procLens list).priv Private.length) ' ' ++ Private).length
          = (setw (procLens list).priv (showInt e.priv) ++ " KiB".toList).length
        ∧ (List.replicate (headerPad (procLens list).rss Rss.length) ' ' ++ Rss).length
          = (setw (procLens list).rss (showInt e.rss) ++ " KiB".toList).length
        ∧ (List.replicate (headerPad (procLens list).swap Swap.length) ' ' ++ Swap).length
          = (setw (procLens list).swap (showInt e.swap) ++ " KiB".toList).length) := by
  obtain ⟨r1, r2, r3, r4⟩ := procLens_range list hne hfit
  have p1 := headerPad_eq (procLens list).shared Shared.length
    (by rw [show Shared.length = 6 from rfl]; omega) r1.2
  have p2 := headerPad_eq (procLens list).priv Private.length
    (by rw [show Private.length = 7 from rfl]; omega) r2.2
  have p3 := headerPad_eq (procLens list).rss Rss.length
    (by rw [show Rss.length = 3 from rfl]; omega) r3.2
  have p4 := headerPad_eq (procLens list).swap Swap.length
    (by rw [show Swap.length = 4 from rfl]; omega) r4.2
  have q1 : ((Shared.length : Nat) : Int) = 6 := rfl
  have q2 : ((Private.length : Nat) : Int) = 7 := rfl
  have q3 : ((Rss.length : Nat) : Int) = 3 := rfl
  have q4 : ((Swap.length : Nat) : Int) = 4 := rfl
  have sg : ∀ n : Nat, n ≤ 28 → spaceGen n = .ok (List.replicate n ' ') := by
    intro n hn
    unfold spaceGen stringMaxSize
    rw [if_neg (by omega)]
  refine ⟨⟨p1, by omega⟩, ⟨p2, by omega⟩, ⟨p3, by omega⟩, ⟨p4, by omega⟩,
    ⟨sg _ (by omega), sg _ (by omega), sg _ (by omega), sg _ (by omega)⟩, ?_⟩
  intro e he
  obtain ⟨n1, n2, n3, n4⟩ := hnn e he
  obtain ⟨g1, g2, g3, g4⟩ := procLens_ge list e he
  have c1 := (rightAligned_setw _ _ n1 g1).2.1
  have c2 := (rightAligned_setw _ _ n2 g2).2.1
  have c3 := (rightAligned_setw _ _ n3 g3).2.1
  have c4 := (rightAligned_setw _ _ n4 g4).2.1
  have k : (" KiB".toList).length = 4 := rfl
  simp only [List.length_append, List.length_replicate, k]
  refine ⟨?_, ?_, ?_, ?_⟩ <;> omega

/-- Witness for C18: one record; the width of the shared column is 6 and the
header asks for 4 blanks. -/
theorem header_aligned_witness :
    ((headerPad (procLens [⟨"a".toList, 1, 3, 9, 0, 0, 0⟩]).shared Shared.length : Nat) : Int)
        = (procLens [⟨"a".toList, 1, 3, 9, 0, 0, 0⟩]).shared - (Shared.length : Int) + 4
      ∧ 4 ≤ headerPad (procLens [⟨"a".toList, 1, 3, 9, 0, 0, 0⟩]).shared Shared.length :=
  (header_aligned [⟨"a".toList, 1, 3, 9, 0, 0, 0⟩] (by decide) (by decide) (by decide)).1

theorem printRow_eq_dataRow (config : Config) (proc_lens entry : Process) :
    printRow config proc_lens entry
      = dataRow config.swap (setw proc_lens.shared (showInt entry.shared))
          (setw proc_lens.priv (showInt entry.priv)) (setw proc_lens.rss (showInt entry.rss))
          (setw proc_lens.swap (showInt entry.swap)) entry.name := by
  unfold printRow dataRow
  simp only [List.append_assoc]

theorem printHeader_eq_headerLine (config : Config) (list : ProcList) (hne : list ≠ [])
    (hfit : ∀ e ∈ list, e.shared ≤ INT64_MAX ∧ e.priv ≤ INT64_MAX ∧ e.rss ≤ INT64_MAX
      ∧ e.swap ≤ INT64_MAX) :
    printHeader config (procLens list) = .ok
      (headerLine config.swap (headerPad (procLens list).shared Shared.length)
          (headerPad (procLens list).priv Private.length)
          (headerPad (procLens list).rss Rss.length)
          (headerPad (procLens list).swap Swap.length)
        ++ separator ++ "\n".toList) := by
  obtain ⟨r1, r2, r3, r4⟩ := procLens_range list hne hfit
  rw [printHeader_ok config (procLens list) r1 r2 r3 r4]
  unfold headerLine
  simp only [List.append_assoc]

/-- C15: for every non-empty list of records with 64-bit values, the header
row holds the labels Shared, Private and Rss in that order, the label Swap
after them exactly when the swap option is set, and the label Name last;
every data row holds the cells in the same arrangement and ends with the
name; and without the swap option a row does not depend on the swap value. -/
theorem table_columns (config : Config) (list : ProcList) (hne : list ≠ [])
    (hfit : ∀ e ∈ list, e.shared ≤ INT64_MAX ∧ e.priv ≤ INT64_MAX ∧ e.rss ≤ INT64_MAX
      ∧ e.swap ≤ INT64_MAX) :
    report config list =
      ⟨headerLine config.swap (headerPad (procLens list).shared Shared.length)
            (headerPad (procLens list).priv Private.length)
            (headerPad (procLens list).rss Rss.length)
            (headerPad (procLens list).swap Swap.length)
          ++ separator ++ "\n".toList
          ++ ((sortList config.sort list).map (fun e =>
                dataRow config.swap (setw (procLens list).shared (showInt e.shared))
                  (setw (procLens list).priv (showInt e.priv))
                  (setw (procLens list).rss (showInt e.rss))
                  (setw (procLens list).swap (showInt e.swap)) e.name)).flatten,
        Exit.returned 0⟩
    ∧ (∀ (b1 b2 b3 b4 b5 : Nat), headerLine false b1 b2 b3 b4 = headerLine false b1 b2 b3 b5)
    ∧ (∀ (c1 c2 c3 c4 c5 name : List Char),
        dataRow false c1 c2 c3 c4 name = dataRow false c1 c2 c3 c5 name)
    ∧ (config.swap = false → ∀ (proc_lens entry : Process) (w x : Int),
        printRow config { proc_lens with swap := w } { entry with swap := x }
          = printRow config proc_lens entry) := by
  refine ⟨?_, fun _ _ _ _ _ => rfl, fun _ _ _ _ _ _ => rfl, ?_⟩
  · unfold report
    simp only [printHeader_eq_headerLine config list hne hfit]
    rw [show printRow config (procLens list) = (fun e =>
        dataRow config.swap (setw (procLens list).shared (showInt e.shared))
          (setw (procLens list).priv (showInt e.priv))
          (setw (procLens list).rss (showInt e.rss))
          (setw (procLens list).swap (showInt e.swap)) e.name) from
      funext (printRow_eq_dataRow config (procLens list))]
  · intro hs proc_lens entry w x
    unfold printRow
    simp only [hs]
    rfl

/-- Witness for C15: a list of one record, printed without the swap option. -/
theorem table_columns_witness :
    (report ⟨false, false, SortMode.None⟩ [⟨"sh".toList, 20, 10, 100, 55, 3, 77⟩]).out
      = "     shared    private         rss  name\n".toList ++ separator
        ++ "\n     10 KiB     20 KiB     100 KiB  sh\n".toList := by
  have h := (table_columns ⟨false, false, SortMode.None⟩
    [⟨"sh".toList, 20, 10, 100, 55, 3, 77⟩] (by decide) (by decide)).1
  rw [h]
  decide

theorem parseCommandLine_swap (args : List GetoptResult) (config : Config)
    (h : config.swap = true) : (parseCommandLine args config).swap = true := by
  induction args generalizing config with
  | nil => exact h
  | cons r rs ih =>
    have hstep : (parseArgument config r).1.swap = true := by
      unfold parseArgument
      dsimp only
      split_ifs <;> first | rfl | exact h
    rw [parseCommandLine_cons]
    split_ifs
    · exact ih _ hstep
    · exact hstep

theorem parseArgument_recognised (config : Config) (r : GetoptResult)
    (h : r.argument = 104 ∨ r.argument = 83 ∨ r.argument = 115) :
    (parseArgument config r).2 = true := by
  unfold parseArgument
  dsimp only
  split_ifs <;> first | rfl | (rcases h with h | h | h <;> contradiction)

theorem parseArgument_swap_option (config : Config) (optarg : List Char) :
    parseArgument config ⟨83, optarg⟩ = ({ config with swap := true }, true) := by
  rfl

theorem parse_reaches_swap (pre : List GetoptResult) (optarg : List Char)
    (rest : List GetoptResult) (config : Config)
    (hpre : ∀ r ∈ pre, r.argument = 104 ∨ r.argument = 83 ∨ r.argument = 115) :
    (parseCommandLine (pre ++ ⟨83, optarg⟩ :: rest) config).swap = true := by
  induction pre generalizing config with
  | nil =>
    rw [List.nil_append, parseCommandLine_cons, parseArgument_swap_option]
    exact parseCommandLine_swap rest _ rfl
  | cons r pre ih =>
    rw [List.cons_append, parseCommandLine_cons,
      parseArgument_recognised config r (hpre r (List.mem_cons_self _ _))]
    exact ih _ (fun x hx => hpre x (List.mem_cons_of_mem _ hx))

theorem parseArgument_other_swap (config : Config) (r : GetoptResult) (h : r.argument ≠ 83) :
    (parseArgument config r).1.swap = config.swap := by
  unfold parseArgument
  dsimp only
  split_ifs <;> rfl

theorem parseArgument_stop (config : Config) (r : GetoptResult)
    (h1 : r.argument ≠ 104) (h2 : r.argument ≠ 83) (h3 : r.argument ≠ 115) :
    parseArgument config r = (config, false) := by
  unfold parseArgument
  rw [if_neg h1, if_neg h2, if_neg h3]

theorem swap_flag_inv (args : List GetoptResult) (config : Config)
    (h : (parseCommandLine args config).swap = true) :
    config.swap = true ∨ ∃ (pre : List GetoptResult) (optarg : List Char)
      (rest : List GetoptResult), args = pre ++ ⟨83, optarg⟩ :: rest
        ∧ ∀ r ∈ pre, r.argument = 104 ∨ r.argument = 83 ∨ r.argument = 115 := by
  induction args generalizing config with
  | nil => exact Or.inl h
  | cons r rs ih =>
    by_cases h83 : r.argument = 83
    · refine Or.inr ⟨[], r.optarg, rs, ?_, fun _ hx => absurd hx (List.not_mem_nil _)⟩
      cases r
      simp only at h83
      subst h83
      rfl
    · rw [parseCommandLine_cons] at h
      by_cases hrec : r.argument = 104 ∨ r.argument = 115
      · have hgo : (parseArgument config r).2 = true :=
          parseArgument_recognised config r (by rcases hrec with h | h <;> simp [h])
        rw [hgo] at h
        simp only [if_true] at h
        rcases ih _ h with h1 | ⟨pre, optarg, rest, e, hpre⟩
        · rw [parseArgument_other_swap config r h83] at h1
          exact Or.inl h1
        · refine Or.inr ⟨r :: pre, optarg, rest, by rw [e]; rfl, ?_⟩
          intro x hx
          rcases List.mem_cons.1 hx with rfl | hx
          · rcases hrec with h | h <;> simp [h]
          · exact hpre x hx
      · have hstop := parseArgument_stop config r (fun e => hrec (Or.inl e)) h83
          (fun e => hrec (Or.inr e))
        rw [hstop] at h
        exact Or.inl h

theorem report_nonempty (config : Config) (list : ProcList) (hne : list ≠ [])
    (hfit : ∀ e ∈ list, e.shared ≤ INT64_MAX ∧ e.priv ≤ INT64_MAX ∧ e.rss ≤ INT64_MAX
      ∧ e.swap ≤ INT64_MAX) :
    report config list =
      ⟨headerLine config.swap (headerPad (procLens list).shared Shared.length)
            (headerPad (procLens list).priv Private.length)
            (headerPad (procLens list).rss Rss.length)
            (headerPad (procLens list).swap Swap.length)
          ++ separator ++ "\n".toList
          ++ ((sortList config.sort list).map (fun e =>
                dataRow config.swap (setw (procLens list).shared (showInt e.shared))
                  (setw (procLens list).priv (showInt e.priv))
                  (setw (procLens list).rss (showInt e.rss))
                  (setw (procLens list).swap (showInt e.swap)) e.name)).flatten,
        Exit.returned 0⟩ := by
  unfold report
  simp only [printHeader_eq_headerLine config list hne hfit]
  rw [show printRow config (procLens list) = (fun e =>
      dataRow config.swap (setw (procLens list).shared (showInt e.shared))
        (setw (procLens list).priv (showInt e.priv))
        (setw (procLens list).rss (showInt e.rss))
        (setw (procLens list).swap (showInt e.swap)) e.name) from
    funext (printRow_eq_dataRow config (procLens list))]

/-- C17 (amended): the swap flag is set exactly when `getopt_long` returns
the option `-S` with only recognised options before it; then, for a non-empty
list of records, `main` prints the header with the label Swap between Rss and
Name and every row with the swap cell between the rss cell and the name; the
values `pss` and `swap_pss` of a record appear nowhere in a row. After an
unrecognised option the option loop has stopped and `-S` has no effect. -/
theorem swap_option_adds_swap_column :
    (∀ (pre : List GetoptResult) (optarg : List Char) (rest : List GetoptResult),
        (∀ r ∈ pre, r.argument = 104 ∨ r.argument = 83 ∨ r.argument = 115) →
        (parseCommandLine (pre ++ ⟨83, optarg⟩ :: rest) ⟨false, false, SortMode.None⟩).swap
          = true)
    ∧ (∀ args : List GetoptResult,
        (parseCommandLine args ⟨false, false, SortMode.None⟩).swap = true ↔
          ∃ (pre : List GetoptResult) (optarg : List Char) (rest : List GetoptResult),
            args = pre ++ ⟨83, optarg⟩ :: rest
              ∧ ∀ r ∈ pre, r.argument = 104 ∨ r.argument = 83 ∨ r.argument = 115)
    ∧ (parseCommandLine [⟨63, []⟩, ⟨83, []⟩] ⟨false, false, SortMode.None⟩).swap = false
    ∧ (∀ (args : List GetoptResult) (proc : ProcRoot),
        (parseCommandLine args ⟨false, false, SortMode.None⟩).swap = true →
        createProcessList [] proc ≠ [] →
        (∀ e ∈ createProcessList [] proc, e.shared ≤ INT64_MAX ∧ e.priv ≤ INT64_MAX
          ∧ e.rss ≤ INT64_MAX ∧ e.swap ≤ INT64_MAX) →
        main args proc =
          ⟨headerLine true
                (headerPad (procLens (createProcessList [] proc)).shared Shared.length)
                (headerPad (procLens (createProcessList [] proc)).priv Private.length)
                (headerPad (procLens (createProcessList [] proc)).rss Rss.length)
                (headerPad (procLens (createProcessList [] proc)).swap Swap.length)
              ++ separator ++ "\n".toList
              ++ ((sortList (parseCommandLine args ⟨false, false, SortMode.None⟩).sort
                    (createProcessList [] proc)).map (fun e =>
                    dataRow true
                      (setw (procLens (createProcessList [] proc)).shared (showInt e.shared))
                      (setw (procLens (createProcessList [] proc)).priv (showInt e.priv))
                      (setw (procLens (createProcessList [] proc)).rss (showInt e.rss))
                      (setw (procLens (createProcessList [] proc)).swap (showInt e.swap))
                      e.name)).flatten,
            Exit.returned 0⟩)
    ∧ (∀ (config : Config) (proc_lens entry : Process), config.swap = true →
        printRow config proc_lens entry
          = setw proc_lens.shared (showInt entry.shared) ++ " KiB".toList
            ++ setw proc_lens.priv (showInt entry.priv) ++ " KiB".toList
            ++ setw proc_lens.rss (showInt entry.rss) ++ " KiB".toList
            ++ (setw proc_lens.swap (showInt entry.swap) ++ " KiB".toList)
            ++ "  ".toList ++ entry.name ++ "\n".toList)
    ∧ (∀ (config : Config) (proc_lens entry : Process) (x y : Int),
        printRow config proc_lens { entry with pss := x, swap_pss := y }
          = printRow config proc_lens entry)
    ∧ (∀ (proc_lens entry : Process) (x y : Int),
        lensStep proc_lens { entry with pss := x, swap_pss := y } = lensStep proc_lens entry)
    ∧ (∀ (config : Config) (list : ProcList), list ≠ [] →
        (∀ e ∈ list, e.shared ≤ INT64_MAX ∧ e.priv ≤ INT64_MAX ∧ e.rss ≤ INT64_MAX
          ∧ e.swap ≤ INT64_MAX) →
        config.swap = true →
        printHeader config (procLens list) = .ok
          (List.replicate (headerPad (procLens list).shared Shared.length) ' ' ++ Shared
            ++ (List.replicate (headerPad (procLens list).priv Private.length) ' ' ++ Private)
            ++ (List.replicate (headerPad (procLens list).rss Rss.length) ' ' ++ Rss)
            ++ (List.replicate (headerPad (procLens list).swap Swap.length) ' ' ++ Swap)
            ++ ("  ".toList ++ Name ++ "\n".toList) ++ separator ++ "\n".toList)) := by
  refine ⟨?_, ?_, by decide, ?_, ?_, fun _ _ _ _ _ => rfl, fun _ _ _ _ => rfl, ?_⟩
  · intro pre optarg rest hpre
    exact parse_reaches_swap pre optarg rest _ hpre
  · intro args
    constructor
    · intro h
      rcases swap_flag_inv args _ h with h0 | h1
      · exact Bool.noConfusion h0
      · exact h1
    · rintro ⟨pre, optarg, rest, rfl, hpre⟩
      exact parse_reaches_swap pre optarg rest _ hpre
  · intro args proc hs hne hfit
    unfold main
    have h := report_nonempty (parseCommandLine args ⟨false, false, SortMode.None⟩)
      (createProcessList [] proc) hne hfit
    rw [hs] at h
    exact h
  · intro config proc_lens entry hs
    unfold printRow
    rw [if_pos hs]
  · intro config list hne hfit hs
    rw [printHeader_eq_headerLine config list hne hfit]
    unfold headerLine
    rw [if_pos hs]

/-- Witness for C17: the command line `-s rss -S` sets the swap flag, and the
row of one record printed with the flag has the swap cell. -/
theorem swap_option_adds_swap_column_witness :
    (parseCommandLine ([⟨115, "rss".toList⟩] ++ ⟨83, []⟩ :: [])
        ⟨false, false, SortMode.None⟩).swap = true
    ∧ printRow ⟨false, true, SortMode.None⟩ ⟨[], 7, 7, 8, 0, 6, 0⟩
          ⟨"sh".toList, 20, 10, 100, 55, 3, 77⟩
        = "     10 KiB     20 KiB     100 KiB     3 KiB  sh\n".toList :=
  ⟨swap_option_adds_swap_column.1 [⟨115, "rss".toList⟩] [] [] (by decide),
    (swap_option_adds_swap_column.2.2.2.2.1 ⟨false, true, SortMode.None⟩ ⟨[], 7, 7, 8, 0, 6, 0⟩
      ⟨"sh".toList, 20, 10, 100, 55, 3, 77⟩ rfl).trans (by decide)⟩

set_option maxRecDepth 100000 in
/-- C17 as stated fails: with the swap option the table of a record with
`swap_pss` 77 has the columns shared, private, rss, swap and name only, and
is the same as the table of the record with `swap_pss` 0. -/
theorem no_swap_pss_column :
    report ⟨false, true, SortMode.None⟩ [⟨"sh".toList, 20, 10, 100, 55, 3, 77⟩]
      = ⟨"     shared    private         rss      swap  name\n".toList ++ separator
          ++ "\n     10 KiB     20 KiB     100 KiB     3 KiB  sh\n".toList, Exit.returned 0⟩
    ∧ report ⟨false, true, SortMode.None⟩ [⟨"sh".toList, 20, 10, 100, 55, 3, 77⟩]
      = report ⟨false, true, SortMode.None⟩ [⟨"sh".toList, 20, 10, 100, 55, 3, 0⟩] := by
  decide

end Memstat
